/-
Verification of the segment retrieval and record-extraction pipeline
(src/src/main.rs) against its natural-language specification.

Shallow embedding conventions:
* Rust strings processed character-wise are `List Char`; raw byte streams
  (the decompressed WARC file) are `List Nat` with each entry a byte value.
* Rust `f64` values are embedded as `ℚ` with exact decimal semantics: a
  decimal literal or decimal string denotes the exact rational it spells.
  All comparisons and formatting are modelled on those rationals.
* Fallible operations return `Option`.
* Whitespace predicates model the ASCII fragment of Rust's
  `char::is_whitespace` (the inputs involved in the claims are ASCII).
-/
import Mathlib

/- Batteries marks the `Rat` field operations `@[irreducible]`, which
blocks kernel evaluation of concrete rational arithmetic; restore the
default reducibility for this development so that `decide` can evaluate
the embedded computations on concrete inputs. -/
attribute [local semireducible] Rat.add Rat.sub Rat.mul Rat.inv Rat.ofScientific

namespace CcSwedish

/-! ## Character and digit utilities -/

/-- ASCII whitespace characters (fragment of Rust `char::is_whitespace`). -/
def isWsC (c : Char) : Bool :=
  decide (c.toNat = 32 ∨ c.toNat = 9 ∨ c.toNat = 10 ∨ c.toNat = 13 ∨
          c.toNat = 11 ∨ c.toNat = 12)

/-- ASCII digit test on characters. -/
def isDigitC (c : Char) : Bool := decide (48 ≤ c.toNat ∧ c.toNat ≤ 57)

/-- Numeric value of an ASCII digit character. -/
def digitVal (c : Char) : Nat := c.toNat - 48

/-- The decimal digit character for `n` (`n ≤ 9` in all uses). -/
def decDigit : Nat → Char
  | 0 => '0' | 1 => '1' | 2 => '2' | 3 => '3' | 4 => '4'
  | 5 => '5' | 6 => '6' | 7 => '7' | 8 => '8' | 9 => '9'
  | _ => '0'

/-- Value of a string of decimal digits, most significant first
(the accumulating loop of an integer parse). -/
def digitsVal (l : List Char) : Nat := l.foldl (fun a c => a * 10 + digitVal c) 0

/-- Decimal digits of `n`, most significant first; fuel-driven so that the
kernel can evaluate it (`natDigits` below supplies sufficient fuel). -/
def natDigitsF : Nat → Nat → List Char
  | 0, _ => []
  | f + 1, n => if n < 10 then [decDigit n] else natDigitsF f (n / 10) ++ [decDigit (n % 10)]

/-- Decimal representation of a natural number (Rust `{}` formatting). -/
def natDigits (n : Nat) : List Char := natDigitsF (n + 1) n

/-! ## Dot-splitting, domain extraction and reversal
(src/src/main.rs lines 46-77).  `splitDot` models Rust `str::split('.')`,
`joinSep` models `Vec::join` with a one-character separator. -/

/-- Rust `host.split('.')`: splits into dot-free segments; never empty. -/
def splitDot : List Char → List (List Char)
  | [] => [[]]
  | c :: rest =>
    if c = '.' then [] :: splitDot rest
    else
      match splitDot rest with
      | [] => [[c]]
      | p :: ps => (c :: p) :: ps

/-- Rust `parts.join(sep)` for a one-character separator. -/
def joinSep (sep : Char) : List (List Char) → List Char
  | [] => []
  | [x] => x
  | x :: y :: ys => x ++ sep :: joinSep sep (y :: ys)

/-- `parts.join(".")`. -/
def joinDot (xs : List (List Char)) : List Char := joinSep '.' xs

/-- `reverse_domain` (src/src/main.rs lines 73-77): split on `.`, reverse
the parts, re-join with `.`. -/
def reverse_domain (host_rev : List Char) : List Char :=
  joinDot (splitDot host_rev).reverse

/-- The multi-part suffix list of `extract_domain`
(src/src/main.rs line 59). -/
def multiTlds : List (List Char) :=
  ["co.uk".data, "org.uk".data, "gov.uk".data, "com.au".data, "co.jp".data]

/-- Host-level body of `extract_domain` (src/src/main.rs lines 46-71).
URL parsing and `host_str` (the external `url` crate) are abstracted away:
this function receives the host already extracted from the URL. -/
def extract_domain_host (host : List Char) : List Char :=
  let parts := splitDot host
  if parts.length < 2 then host
  else
    let lastTwo := joinDot (parts.drop (parts.length - 2))
    if multiTlds.contains lastTwo ∧ 3 ≤ parts.length then
      joinDot (parts.drop (parts.length - 3))
    else
      joinDot (parts.drop (parts.length - 2))

/-! ## Decimal number parsing (Rust `str::parse::<f64>` on finite decimal
input, embedded exactly into `ℚ`).  The grammar modelled is
`[+|-] digits [. digits] [ (e|E) [+|-] digits ]` (also `. digits` with an
empty integer part); `inf`/`NaN` have no `ℚ` counterpart and are outside
the model. -/

/-- Leading sign: `(isNegative, rest)`. -/
def takeSign (l : List Char) : Bool × List Char :=
  if l.head? = some '-' then (true, l.tail)
  else if l.head? = some '+' then (false, l.tail)
  else (false, l)

/-- Optional exponent suffix applied to an already-parsed mantissa. -/
def parseExpPart (m : ℚ) (l : List Char) : Option ℚ :=
  if l = [] then some m
  else if l.head? = some 'e' ∨ l.head? = some 'E' then
    let sg := takeSign l.tail
    let ds := sg.2.takeWhile isDigitC
    let rest := sg.2.dropWhile isDigitC
    if ds = [] ∨ rest ≠ [] then none
    else some (m * (10 : ℚ) ^ (if sg.1 then -(digitsVal ds : ℤ) else (digitsVal ds : ℤ)))
  else none

/-- Parse a finite decimal float string to its exact rational value. -/
def parseF64 (l : List Char) : Option ℚ :=
  let sg := takeSign l
  let ip := sg.2.takeWhile isDigitC
  let l2 := sg.2.dropWhile isDigitC
  let core : Option (ℚ × List Char) :=
    if l2.head? = some '.' then
      let l3 := l2.tail
      let fp := l3.takeWhile isDigitC
      let l4 := l3.dropWhile isDigitC
      if ip = [] ∧ fp = [] then none
      else some ((digitsVal ip : ℚ) + (digitsVal fp : ℚ) / 10 ^ fp.length, l4)
    else if ip = [] then none
    else some ((digitsVal ip : ℚ), l2)
  match core with
  | none => none
  | some (m, rest) => (parseExpPart m rest).map (fun v => if sg.1 then -v else v)

/-! ## The extraction subprocess result (serde_json `Value`) and the
language/quality filter (src/src/main.rs lines 329-341). -/

/-- serde_json `Value`; numbers are embedded as exact rationals. -/
inductive JValue where
  | jnull
  | jbool (b : Bool)
  | num (q : ℚ)
  | str (s : String)
  | arr (elems : List JValue)
  | obj (fields : List (String × JValue))

/-- `Value::get(key)` on an object (key lookup; `None` on non-objects). -/
def JValue.get (v : JValue) (k : String) : Option JValue :=
  match v with
  | .obj fs => fs.lookup k
  | _ => none

/-- `Value::as_str`: `Some` only when the value is a JSON string. -/
def JValue.asStr : JValue → Option String
  | .str s => some s
  | _ => none

/-- UTF-8 byte count of one character (Rust `char::len_utf8`). -/
def utf8Len (c : Char) : Nat :=
  if c.toNat < 128 then 1
  else if c.toNat < 2048 then 2
  else if c.toNat < 65536 then 3
  else 4

/-- Rust `str::len`: the UTF-8 byte length of a string. -/
def rustLen (s : String) : Nat := (s.data.map utf8Len).sum

/-- `parsed.get("lang").and_then(Value::as_str).unwrap_or("")`
(src/src/main.rs line 330). -/
def langOf (v : JValue) : String := ((v.get "lang").bind JValue.asStr).getD ""

/-- `parsed.get("lang_prob").and_then(Value::as_str).and_then(parse).unwrap_or(0.0)`
(src/src/main.rs lines 331-333).  Note `Value::as_str`, so only
string-encoded numbers are ever parsed. -/
def langProbOf (v : JValue) : ℚ :=
  (((v.get "lang_prob").bind JValue.asStr).bind (fun s => parseF64 s.data)).getD 0

/-- `parsed.get("text").and_then(Value::as_str).unwrap_or("")`
(src/src/main.rs line 334). -/
def textOf (v : JValue) : String := ((v.get "text").bind JValue.asStr).getD ""

/-- The filter `lang == "sv" && lang_prob > 0.8 && text.len() > 100`
(src/src/main.rs line 336); `0.8` is the exact rational 4/5 in this
embedding and `text.len()` counts UTF-8 bytes. -/
def keepDoc (v : JValue) : Bool :=
  (langOf v == "sv") && decide ((4 : ℚ) / 5 < langProbOf v) && decide (100 < rustLen (textOf v))

/-! ## The record scanner `read_warc_headers` (src/src/main.rs lines 262-347).

The decompressed archive file is a byte stream (`List Nat`).  `readHL`
transcribes the inner header loop (lines 284-296): `read_line` accumulates
bytes up to and including a newline; a line whose `trim()` is empty ends
the header block; end-of-stream before a newline first returns the partial
chunk and then reports EOF, at which point the collected headers are
discarded and the scan returns `Ok`.  The extraction subprocess
(`python3 html2text.py`, lines 318-329) is abstracted as an oracle
`ex : List Nat → Option JValue` mapping the temp-file contents to the
parsed JSON of its stdout (`none` = non-zero exit or unparsable output). -/

/-- ASCII whitespace on bytes (Rust `char::is_whitespace`, ASCII part). -/
def isWsB (b : Nat) : Bool := decide (b = 32 ∨ b = 9 ∨ b = 10 ∨ b = 13 ∨ b = 11 ∨ b = 12)

/-- ASCII digit test on bytes. -/
def isDigitB (b : Nat) : Bool := decide (48 ≤ b ∧ b ≤ 57)

/-- Rust `str::trim_end` on a byte line (ASCII whitespace). -/
def trimEndB (l : List Nat) : List Nat := (l.reverse.dropWhile isWsB).reverse

/-- Bytes of an ASCII string literal (used to build concrete streams). -/
def strBytes (s : String) : List Nat := s.data.map Char.toNat

/-- The header prefix `"Content-Length: "` as bytes. -/
def clMark : List Nat := strBytes "Content-Length: "

/-- Rust `str::strip_prefix` on bytes. -/
def dropPre : List Nat → List Nat → Option (List Nat)
  | [], l => some l
  | _ :: _, [] => none
  | p :: ps, x :: xs => if p = x then dropPre ps xs else none

/-- Accumulated value of a byte string of decimal digits. -/
def digitsValB (l : List Nat) : Nat := l.foldl (fun a b => a * 10 + (b - 48)) 0

/-- Rust `str::parse::<usize>` on bytes (optional `+`, digits only,
value must fit in 64 bits). -/
def parseUsizeB (l : List Nat) : Option Nat :=
  let l2 := match l with | 43 :: r => r | _ => l
  if l2 ≠ [] ∧ l2.all isDigitB ∧ digitsValB l2 < 2 ^ 64 then some (digitsValB l2) else none

/-- The `Content-Length` scan over the collected header lines
(src/src/main.rs lines 303-308): every matching header overwrites the
value, an unparsable value becomes 0 (`unwrap_or(0)`), default 0. -/
def contentLengthOf (headers : List (List Nat)) : Nat :=
  headers.foldl
    (fun acc h =>
      match dropPre clMark h with
      | some rest => (parseUsizeB rest).getD 0
      | none => acc) 0

/-- Result of reading one header block. -/
inductive HeadersOut where
  | eof
  | done (hs : List (List Nat)) (rest : List Nat)
deriving DecidableEq

/-- The header-line loop (src/src/main.rs lines 284-296), byte by byte:
`cur` is the current line so far, `acc` the headers collected (reversed). -/
def readHL : List Nat → List Nat → List (List Nat) → HeadersOut
  | [], cur, acc =>
    if cur = [] then .eof
    else if cur.all isWsB then .done acc.reverse []
    else .eof
  | b :: rest, cur, acc =>
    if b = 10 then
      if cur.all isWsB then .done acc.reverse rest
      else readHL rest [] (trimEndB cur :: acc)
    else readHL rest (cur ++ [b]) acc

/-- Read header lines until a blank line (or EOF) from the stream. -/
def readHeaderLines (s : List Nat) : HeadersOut := readHL s [] []

/-- Scan state: extraction attempts made (temp-file contents handed to the
subprocess), documents appended to the output sink, and whether the temp
file currently exists on disk. -/
structure ScanSt where
  attempts : List (List Nat)
  persisted : List JValue
  tmpExists : Bool

/-- How `read_warc_headers` exited: EOF during header read (line 289),
empty header block (line 299), or an error from `read_exact` (line 313). -/
inductive ExitKind where
  | eofOk
  | emptyOk
  | readErr
deriving DecidableEq

/-- Observable outcome of a scan. -/
structure ScanOut where
  attempts : List (List Nat)
  persisted : List JValue
  tmpExists : Bool
  exit : ExitKind

/-- State at entry of `read_warc_headers`: no temp file yet. -/
def initSt : ScanSt := ⟨[], [], false⟩

/-- Lines 325-341: what reaches the output sink for one record body —
run the subprocess, parse its JSON, keep the document iff it passes the
filter. -/
def persistOf (ex : List Nat → Option JValue) (body : List Nat) : List JValue :=
  match ex body with
  | none => []
  | some v => if keepDoc v then [v] else []

/-- The outer record loop of `read_warc_headers` (lines 279-344), fuel-
driven so the kernel can evaluate it; one fuel unit per record.  A body of
`contentLength + 4` bytes is read with `read_exact` (line 313; error exit
if the stream is shorter), written whole to the temp file (line 315,
`tmpExists := true`) and handed to the extraction oracle.  At EOF during
header read and after an empty header block the temp file is removed
(lines 289 and 345) before returning `Ok`; the `read_exact` error path
returns early without removing it. -/
def scanF (ex : List Nat → Option JValue) : Nat → List Nat → ScanSt → ScanOut
  | 0, _, st => ⟨st.attempts, st.persisted, st.tmpExists, .readErr⟩
  | fuel + 1, s, st =>
    match readHeaderLines s with
    | .eof => ⟨st.attempts, st.persisted, false, .eofOk⟩
    | .done hs rest =>
      if hs = [] then ⟨st.attempts, st.persisted, false, .emptyOk⟩
      else if contentLengthOf hs = 0 then scanF ex fuel rest st
      else if rest.length < contentLengthOf hs + 4 then
        ⟨st.attempts, st.persisted, st.tmpExists, .readErr⟩
      else
        scanF ex fuel (rest.drop (contentLengthOf hs + 4))
          ⟨st.attempts ++ [rest.take (contentLengthOf hs + 4)],
           st.persisted ++ persistOf ex (rest.take (contentLengthOf hs + 4)), true⟩

/-- `read_warc_headers` on a byte stream: the fuel `s.length + 1` is
always sufficient because every record consumes at least one byte. -/
def scan (ex : List Nat → Option JValue) (s : List Nat) (st : ScanSt) : ScanOut :=
  scanF ex (s.length + 1) s st

/-! ## The ranged fetch `fetch_and_write` (src/src/main.rs lines 213-238). -/

/-- 64-bit wrap-around addition (Rust release-mode `u64` semantics). -/
def wrapAdd (a b : Nat) : Nat := (a + b) % 2 ^ 64

/-- 64-bit wrap-around subtraction. -/
def wrapSub (a b : Nat) : Nat := (a + (2 ^ 64 - b % 2 ^ 64)) % 2 ^ 64

/-- The end of the HTTP byte range, `offset + length - 1` computed in
`u64` (src/src/main.rs line 216). -/
def rangeEndOf (offset length : Nat) : Nat := wrapSub (wrapAdd offset length) 1

/-- The subtraction `(offset + length) - 1` underflows (would panic in a
debug build) iff its `u64` minuend is zero. -/
def rangeSubUnderflows (offset length : Nat) : Bool := decide (wrapAdd offset length = 0)

/-- An HTTP response, reduced to what `fetch_and_write` inspects. -/
structure HttpResponse where
  status : Nat
  body : List Nat

/-- `reqwest::StatusCode::is_success`: 200..=299. -/
def is2xx (status : Nat) : Bool := decide (200 ≤ status ∧ status ≤ 299)

/-- One index record (src/src/main.rs lines 22-32); `offset`/`length` are
`u64` values. -/
structure CcRecord where
  url : String
  filename : String
  offset : Nat
  length : Nat

/-- Observable effect of one `fetch_and_write` call: the range end it
computed, the bytes appended to the output writer, the total sleep, and
whether it returned `Ok`. -/
structure FetchEffect where
  rangeEndSent : Nat
  written : List Nat
  sleptMs : Nat
  ok : Bool
deriving DecidableEq

/-- `fetch_and_write` (src/src/main.rs lines 213-238) over an abstract
response and an abstract gzip decoder (`none` = corrupt stream, the `?`
error path).  Non-2xx: log, sleep 1000 ms, return `Ok` with nothing
written (lines 220-225); otherwise decompress fully and append. -/
def fetch_and_write (rec : CcRecord) (resp : HttpResponse)
    (gunzip : List Nat → Option (List Nat)) : FetchEffect :=
  let e := rangeEndOf rec.offset rec.length
  if is2xx resp.status = false then ⟨e, [], 1000, true⟩
  else
    match gunzip resp.body with
    | none => ⟨e, [], 0, false⟩
    | some d => ⟨e, d, 0, true⟩

/-! ## The domain ranking file: `read_se_domains` (src/src/main.rs lines
79-158) and `write_se_domains` (lines 161-184). -/

/-- Rust `str::trim` (ASCII whitespace). -/
def trimC (l : List Char) : List Char :=
  ((l.dropWhile isWsC).reverse.dropWhile isWsC).reverse

/-- Rust `str::split_whitespace`, accumulator form (`cur` is the current
token, reversed). -/
def splitWsA : List Char → List Char → List (List Char)
  | [], cur => if cur = [] then [] else [cur.reverse]
  | c :: rest, cur =>
    if isWsC c then
      if cur = [] then splitWsA rest [] else cur.reverse :: splitWsA rest []
    else splitWsA rest (c :: cur)

/-- Rust `str::split_whitespace` as a list of tokens. -/
def splitWs (l : List Char) : List (List Char) := splitWsA l []

/-- One parsed row of the ranking file (src/src/main.rs lines 34-42);
numeric `f64` columns are embedded as `ℚ`, `usize` columns as `Nat`. -/
structure DomainRecord where
  harmonicc_pos : Nat
  harmonicc_val : ℚ
  pr_pos : Nat
  pr_val : ℚ
  host : List Char
  n_hosts : Nat
deriving DecidableEq

/-- Rust `str::parse::<usize>` on characters. -/
def parseUsizeC (l : List Char) : Option Nat :=
  let l2 := if l.head? = some '+' then l.tail else l
  if l2 ≠ [] ∧ l2.all isDigitC ∧ digitsVal l2 < 2 ^ 64 then some (digitsVal l2) else none

/-- `host_rev.starts_with("se.")` (src/src/main.rs line 145). -/
def startsWithSe : List Char → Bool
  | 's' :: 'e' :: '.' :: _ => true
  | _ => false

/-- Processing of one line of the ranking file (src/src/main.rs lines
85-155): trim; skip empty and `#` lines; split on whitespace; need at
least 6 columns; parse the four numeric columns and the host count, skip
the line on any failure; keep only rows whose reverse-order host starts
with `se.`, storing the host in conventional order. -/
def parseLineDomainRec (line : List Char) : Option DomainRecord :=
  let t := trimC line
  if t = [] ∨ t.head? = some '#' then none
  else
    match splitWs t with
    | c0 :: c1 :: c2 :: c3 :: c4 :: c5 :: _ =>
      match parseUsizeC c0, parseF64 c1, parseUsizeC c2, parseF64 c3, parseUsizeC c5 with
      | some hp, some hv, some pp, some pv, some nh =>
        if startsWithSe c4 then
          some ⟨hp, hv, pp, pv, reverse_domain c4, nh⟩
        else none
      | _, _, _, _, _ => none
    | _ => none

/-- `read_se_domains` on the file's lines. -/
def read_se_domains (lines : List (List Char)) : List DomainRecord :=
  lines.filterMap parseLineDomainRec

/-- Round a rational to the nearest integer (the digit-level rounding of
Rust's fixed-precision float formatting; ties are a half-ulp modelling
choice and stay within every tolerance stated below). -/
def roundQ (q : ℚ) : ℤ := ⌊q + 1 / 2⌋

/-- Pad a digit string with leading zeros to width `d`. -/
def padZeros (d : Nat) (l : List Char) : List Char :=
  List.replicate (d - l.length) '0' ++ l

/-- Rust `{:.d}` fixed-point formatting of a float, on the exact rational:
round `q` to `d` decimal places and print all `d` of them. -/
def fmtFixed (d : Nat) (q : ℚ) : List Char :=
  let n : ℤ := roundQ (q * 10 ^ d)
  let m : Nat := n.natAbs
  (if n < 0 then ['-'] else []) ++
    natDigits (m / 10 ^ d) ++ '.' :: padZeros d (natDigits (m % 10 ^ d))

/-- Decimal digits of an integer with optional sign (Rust `{}` on the
exponent of `{:E}` formatting). -/
def intDigits (e : ℤ) : List Char := (if e < 0 then ['-'] else []) ++ natDigits e.natAbs

/-- The decimal exponent of a positive rational: the unique `e` with
`10 ^ e ≤ x < 10 ^ (e + 1)`. -/
def decExp (x : ℚ) : ℤ :=
  let K : Nat := (natDigits x.den).length
  let t : Nat := (⌊x * 10 ^ K⌋).toNat
  ((natDigits t).length : ℤ) - 1 - K

/-- Rust `{:.d E}` scientific formatting of a float, on the exact
rational: one leading digit, `d` fractional digits, `E`, exponent. -/
def fmtSci (d : Nat) (q : ℚ) : List Char :=
  if q = 0 then '0' :: '.' :: (List.replicate d '0' ++ ['E', '0'])
  else
    let x := |q|
    let e := decExp x
    let m0 : Nat := (roundQ (x * 10 ^ ((d : ℤ) - e))).toNat
    let m : Nat := if m0 = 10 ^ (d + 1) then 10 ^ d else m0
    let e2 : ℤ := if m0 = 10 ^ (d + 1) then e + 1 else e
    let ds := natDigits m
    (if q < 0 then ['-'] else []) ++ ds.headD '0' :: '.' :: (ds.tail ++ 'E' :: intDigits e2)

/-- The header comment line written by `write_se_domains`
(src/src/main.rs lines 165-168). -/
def headerLineSe : List Char :=
  "#harmonicc_pos\t#harmonicc_val\t#pr_pos\t#pr_val\t#host\t#n_hosts".data

/-- One data line of `write_se_domains` (src/src/main.rs lines 170-181):
`"{}\t{:.7E}\t{}\t{:.18}\t{}\t{}"` with the host restored to reverse
order. -/
def writeLine (r : DomainRecord) : List Char :=
  joinSep '\t'
    [natDigits r.harmonicc_pos, fmtSci 7 r.harmonicc_val, natDigits r.pr_pos,
     fmtFixed 18 r.pr_val, reverse_domain r.host, natDigits r.n_hosts]

/-- `write_se_domains`: the lines of the file it creates. -/
def write_se_domains (records : List DomainRecord) : List (List Char) :=
  headerLineSe :: records.map writeLine

/-- A well-formed `.se` DomainRecord as produced by `read_se_domains`:
its reverse-order host starts with `se.`, the host has no whitespace, and
the `usize` fields fit in 64 bits. -/
def GoodRec (r : DomainRecord) : Prop :=
  startsWithSe (reverse_domain r.host) = true
  ∧ (∀ c ∈ r.host, isWsC c = false)
  ∧ r.harmonicc_pos < 2 ^ 64 ∧ r.pr_pos < 2 ^ 64 ∧ r.n_hosts < 2 ^ 64

instance (r : DomainRecord) : Decidable (GoodRec r) := by
  unfold GoodRec
  infer_instance

/-! ## Concrete values used by witnesses and counterexamples. -/

/-- An extraction result with Swedish language, string probability 0.9 and
a 51-character text of two-byte UTF-8 characters (102 bytes). -/
def docMulti : JValue :=
  JValue.obj [("lang", JValue.str "sv"), ("lang_prob", JValue.str "0.9"),
    ("text", JValue.str "ååååååååååååååååååååååååååååååååååååååååååååååååååå")]

/-- An extraction result with Swedish language, string probability 0.9 and
a 101-character ASCII text. -/
def docAscii : JValue :=
  JValue.obj [("lang", JValue.str "sv"), ("lang_prob", JValue.str "0.9"),
    ("text", JValue.str "aaaaaaaaaaaaaaaaaaaaaaaaaaaaaaaaaaaaaaaaaaaaaaaaaaaaaaaaaaaaaaaaaaaaaaaaaaaaaaaaaaaaaaaaaaaaaaaaaaaaa")]

/-- An extraction result whose `lang_prob` is the JSON *number* 0.9
rather than a string. -/
def docNumProb : JValue :=
  JValue.obj [("lang", JValue.str "sv"), ("lang_prob", JValue.num (9 / 10)),
    ("text", JValue.str "aaaaaaaaaaaaaaaaaaaaaaaaaaaaaaaaaaaaaaaaaaaaaaaaaaaaaaaaaaaaaaaaaaaaaaaaaaaaaaaaaaaaaaaaaaaaaaaaaaaaa")]

/-- A well-formed `.se` DomainRecord used to witness the round-trip. -/
def goodRec1 : DomainRecord :=
  ⟨1, 3 / 2, 2, 1 / 4, "www.example.se".data, 5⟩

/-- A one-record WARC stream: header `Content-Length: 2`, body `ab`,
4-byte record terminator. -/
def streamOne : List Nat := strBytes "Content-Length: 2\r\n\r\nab\r\n\r\n"

/-- A stream whose first record is complete and whose second record
declares 5 body bytes but is truncated after 2. -/
def streamTrunc : List Nat :=
  strBytes "Content-Length: 1\r\n\r\na\r\n\r\nContent-Length: 5\r\n\r\nab"

/-- A stream whose first record has no `Content-Length` header. -/
def streamNoLen : List Nat :=
  strBytes "WARC-Type: warcinfo\r\n\r\nContent-Length: 2\r\n\r\nab\r\n\r\n"

/-! ## Helper lemmas: decimal digits -/

theorem natDigitsF_fuel : ∀ f₁ f₂ n, n < f₁ → n < f₂ → natDigitsF f₁ n = natDigitsF f₂ n := by
  intro f₁
  induction f₁ with
  | zero => intro f₂ n h; omega
  | succ f ih =>
    intro f₂ n h1 h2
    match f₂, h2 with
    | g + 1, _ =>
      simp only [natDigitsF]
      by_cases hn : n < 10
      · simp [hn]
      · simp only [if_neg hn]
        have hd : n / 10 < n := Nat.div_lt_self (by omega) (by omega)
        rw [ih g (n / 10) (by omega) (by omega)]

theorem natDigits_eq (n : Nat) :
    natDigits n = if n < 10 then [decDigit n] else natDigits (n / 10) ++ [decDigit (n % 10)] := by
  unfold natDigits
  conv_lhs => rw [natDigitsF]
  by_cases hn : n < 10
  · simp [hn]
  · simp only [if_neg hn]
    have hd : n / 10 < n := Nat.div_lt_self (by omega) (by omega)
    rw [natDigitsF_fuel n (n / 10 + 1) (n / 10) (by omega) (by omega)]

theorem natDigits_ne_nil (n : Nat) : natDigits n ≠ [] := by
  rw [natDigits_eq]
  by_cases hn : n < 10 <;> simp [hn]

theorem digitVal_decDigit {n : Nat} (h : n < 10) : digitVal (decDigit n) = n := by
  revert h
  exact (by decide : ∀ n, n < 10 → digitVal (decDigit n) = n) n

theorem isDigitC_decDigit {n : Nat} (h : n < 10) : isDigitC (decDigit n) = true := by
  revert h
  exact (by decide : ∀ n, n < 10 → isDigitC (decDigit n) = true) n

theorem natDigits_all_digit (n : Nat) : ∀ c ∈ natDigits n, isDigitC c = true := by
  induction n using Nat.strong_induction_on with
  | _ n ih =>
    rw [natDigits_eq]
    by_cases hn : n < 10
    · simp only [if_pos hn, List.mem_singleton]
      rintro c rfl
      exact isDigitC_decDigit hn
    · simp only [if_neg hn, List.mem_append, List.mem_singleton]
      rintro c (hc | rfl)
      · exact ih (n / 10) (Nat.div_lt_self (by omega) (by omega)) c hc
      · exact isDigitC_decDigit (Nat.mod_lt _ (by omega))

theorem not_ws_of_digit {c : Char} (h : isDigitC c = true) : isWsC c = false := by
  simp only [isDigitC, decide_eq_true_eq] at h
  simp only [isWsC, decide_eq_false_iff_not]
  omega

theorem digitsVal_append (a b : List Char) :
    digitsVal (a ++ b) = digitsVal a * 10 ^ b.length + digitsVal b := by
  have key : ∀ (b : List Char) (acc : Nat),
      List.foldl (fun a c => a * 10 + digitVal c) acc b =
        acc * 10 ^ b.length + List.foldl (fun a c => a * 10 + digitVal c) 0 b := by
    intro b
    induction b with
    | nil => intro acc; simp
    | cons c t ih =>
      intro acc
      simp only [List.foldl_cons, List.length_cons]
      rw [ih (acc * 10 + digitVal c), ih (0 * 10 + digitVal c)]
      ring
  unfold digitsVal
  rw [List.foldl_append, key b]

theorem digitsVal_natDigits (n : Nat) : digitsVal (natDigits n) = n := by
  induction n using Nat.strong_induction_on with
  | _ n ih =>
    rw [natDigits_eq]
    by_cases hn : n < 10
    · simp [if_pos hn, digitsVal, digitVal_decDigit hn]
    · rw [if_neg hn, digitsVal_append, ih (n / 10) (Nat.div_lt_self (by omega) (by omega))]
      have : digitsVal [decDigit (n % 10)] = n % 10 := by
        simp [digitsVal, digitVal_decDigit (Nat.mod_lt n (show 0 < 10 by omega))]
      rw [this]
      simp only [List.length_singleton, pow_one]
      omega

theorem natDigits_length_bounds (n : Nat) (h : 1 ≤ n) :
    10 ^ ((natDigits n).length - 1) ≤ n ∧ n < 10 ^ (natDigits n).length := by
  induction n using Nat.strong_induction_on with
  | _ n ih =>
    rw [natDigits_eq]
    by_cases hn : n < 10
    · simp only [if_pos hn, List.length_singleton]
      constructor <;> simp <;> omega
    · simp only [if_neg hn, List.length_append, List.length_singleton]
      have hd1 : 1 ≤ n / 10 := by omega
      have := ih (n / 10) (Nat.div_lt_self (by omega) (by omega)) hd1
      obtain ⟨lo, hi⟩ := this
      set L := (natDigits (n / 10)).length with hL
      have hL1 : 1 ≤ L := by
        rcases h' : natDigits (n / 10) with _ | ⟨c, t⟩
        · exact absurd h' (natDigits_ne_nil _)
        · simp [hL, h']
      constructor
      · have : 10 ^ (L + 1 - 1) = 10 * 10 ^ (L - 1) := by
          rw [Nat.add_sub_cancel]
          conv_lhs => rw [show L = (L - 1) + 1 by omega]
          ring
        rw [this]
        have := Nat.div_mul_le_self n 10
        calc 10 * 10 ^ (L - 1) ≤ 10 * (n / 10) := by omega
          _ ≤ n := by omega
      · have h10 : 10 ^ (L + 1) = 10 * 10 ^ L := by ring
        rw [h10]
        have : n < 10 * (n / 10) + 10 := by omega
        omega

/-- Length of the decimal representation is determined by the bounds. -/
theorem natDigits_length_eq {n d : Nat} (h1 : 10 ^ d ≤ n) (h2 : n < 10 ^ (d + 1)) :
    (natDigits n).length = d + 1 := by
  have hn1 : 1 ≤ n := le_trans (Nat.one_le_pow _ _ (by omega)) h1
  obtain ⟨lo, hi⟩ := natDigits_length_bounds n hn1
  set L := (natDigits n).length with hL
  have hL1 : 1 ≤ L := by
    rcases h' : natDigits n with _ | ⟨c, t⟩
    · exact absurd h' (natDigits_ne_nil _)
    · simp [hL, h']
  by_contra hne
  rcases Nat.lt_or_ge L (d + 1) with hlt | hge
  · have : 10 ^ L ≤ 10 ^ d := Nat.pow_le_pow_right (by omega) (by omega)
    omega
  · have hgt : d + 1 < L := by omega
    have : 10 ^ (d + 1) ≤ 10 ^ (L - 1) := Nat.pow_le_pow_right (by omega) (by omega)
    omega

/-! ## Helper lemmas: dot-splitting and joining -/

theorem splitDot_ne_nil (l : List Char) : splitDot l ≠ [] := by
  cases l with
  | nil => simp [splitDot]
  | cons c rest =>
    simp only [splitDot]
    by_cases hc : c = '.'
    · simp [hc]
    · simp only [if_neg hc]
      rcases h : splitDot rest with _ | ⟨p, ps⟩ <;> simp

theorem joinSep_cons (sep : Char) (x : List Char) {xs : List (List Char)} (h : xs ≠ []) :
    joinSep sep (x :: xs) = x ++ sep :: joinSep sep xs := by
  cases xs with
  | nil => exact absurd rfl h
  | cons y ys => rfl

theorem splitDot_no_dot (l : List Char) : ∀ p ∈ splitDot l, '.' ∉ p := by
  induction l with
  | nil => simp [splitDot]
  | cons c rest ih =>
    simp only [splitDot]
    by_cases hc : c = '.'
    · simp only [if_pos hc, List.mem_cons]
      rintro p (rfl | hp)
      · simp
      · exact ih p hp
    · simp only [if_neg hc]
      rcases h : splitDot rest with _ | ⟨p, ps⟩
      · exact absurd h (splitDot_ne_nil rest)
      · simp only [List.mem_cons]
        rintro x (rfl | hx)
        · have hp : '.' ∉ p := ih p (by rw [h]; exact List.mem_cons_self _ _)
          simp only [List.mem_cons]
          rintro (rfl | hmem)
          · exact hc rfl
          · exact hp hmem
        · exact ih x (by rw [h]; exact List.mem_cons_of_mem _ hx)

theorem splitDot_cons_dot (rest : List Char) : splitDot ('.' :: rest) = [] :: splitDot rest := by
  simp [splitDot]

theorem splitDot_cons_ne {c : Char} (rest : List Char) (hc : ¬ c = '.') :
    splitDot (c :: rest) =
      match splitDot rest with
      | [] => [[c]]
      | p :: ps => (c :: p) :: ps := by
  simp [splitDot, hc]

theorem joinDot_splitDot (l : List Char) : joinDot (splitDot l) = l := by
  induction l with
  | nil => rfl
  | cons c rest ih =>
    have ih' : joinSep '.' (splitDot rest) = rest := ih
    by_cases hc : c = '.'
    · subst hc
      show joinSep '.' (splitDot ('.' :: rest)) = '.' :: rest
      rw [splitDot_cons_dot, joinSep_cons _ _ (splitDot_ne_nil rest), List.nil_append, ih']
    · show joinSep '.' (splitDot (c :: rest)) = c :: rest
      rw [splitDot_cons_ne rest hc]
      rcases h : splitDot rest with _ | ⟨p, ps⟩
      · exact absurd h (splitDot_ne_nil rest)
      · rw [h] at ih'
        rcases ps with _ | ⟨p', ps'⟩
        · simp only [joinSep] at ih' ⊢
          rw [ih']
        · rw [joinSep_cons _ _ (by simp)] at ih'
          show joinSep '.' ((c :: p) :: p' :: ps') = c :: rest
          rw [joinSep_cons _ _ (by simp), List.cons_append, ih']

theorem splitDot_of_no_dot {l : List Char} (h : '.' ∉ l) : splitDot l = [l] := by
  induction l with
  | nil => rfl
  | cons c rest ih =>
    simp only [List.mem_cons, not_or] at h
    obtain ⟨h1, h2⟩ := h
    have hc' : ¬ c = '.' := fun hh => h1 hh.symm
    rw [splitDot_cons_ne rest hc', ih h2]

theorem splitDot_append_dot {x : List Char} (t : List Char) (h : '.' ∉ x) :
    splitDot (x ++ '.' :: t) = x :: splitDot t := by
  induction x with
  | nil =>
    rw [List.nil_append, splitDot_cons_dot]
  | cons c x' ih =>
    simp only [List.mem_cons, not_or] at h
    obtain ⟨h1, h2⟩ := h
    have hc' : ¬ c = '.' := fun hh => h1 hh.symm
    rw [List.cons_append, splitDot_cons_ne _ hc', ih h2]

theorem splitDot_joinDot : ∀ xs : List (List Char), xs ≠ [] → (∀ p ∈ xs, '.' ∉ p) →
    splitDot (joinDot xs) = xs := by
  intro xs
  induction xs with
  | nil => intro h; exact absurd rfl h
  | cons x ys ih =>
    intro _ hnd
    cases ys with
    | nil =>
      rw [show joinDot [x] = x from rfl]
      exact splitDot_of_no_dot (hnd x (List.mem_cons_self _ _))
    | cons y ys' =>
      rw [joinDot, joinSep_cons _ _ (by simp)]
      rw [splitDot_append_dot _ (hnd x (List.mem_cons_self _ _))]
      rw [show joinSep '.' (y :: ys') = joinDot (y :: ys') from rfl]
      rw [ih (by simp) (fun p hp => hnd p (List.mem_cons_of_mem _ hp))]

theorem reverse_domain_reverse_domain (h : List Char) :
    reverse_domain (reverse_domain h) = h := by
  unfold reverse_domain
  have h1 : (splitDot h).reverse ≠ [] := by
    simp only [ne_eq, List.reverse_eq_nil_iff]
    exact splitDot_ne_nil h
  have h2 : ∀ p ∈ (splitDot h).reverse, '.' ∉ p := by
    intro p hp
    exact splitDot_no_dot h p (List.mem_reverse.mp hp)
  rw [splitDot_joinDot _ h1 h2, List.reverse_reverse, joinDot_splitDot]

/-! ## Helper lemmas: the record scanner -/

theorem readHL_done_le : ∀ (s cur : List Nat) (acc hs : List (List Nat)) (rest : List Nat),
    readHL s cur acc = HeadersOut.done hs rest → rest.length ≤ s.length := by
  intro s
  induction s with
  | nil =>
    intro cur acc hs rest h
    simp only [readHL] at h
    by_cases hc : cur = []
    · simp [hc] at h
    · rw [if_neg hc] at h
      by_cases hw : cur.all isWsB
      · rw [if_pos hw] at h
        cases h
        simp
      · simp [hw] at h
  | cons b s' ih =>
    intro cur acc hs rest h
    simp only [readHL] at h
    by_cases hb : b = 10
    · rw [if_pos hb] at h
      by_cases hw : cur.all isWsB
      · rw [if_pos hw] at h
        cases h
        simp
      · rw [if_neg hw] at h
        have := ih _ _ _ _ h
        simp only [List.length_cons]
        omega
    · rw [if_neg hb] at h
      have := ih _ _ _ _ h
      simp only [List.length_cons]
      omega

theorem readHL_done_lt : ∀ (s cur : List Nat) (acc hs : List (List Nat)) (rest : List Nat),
    s ≠ [] → readHL s cur acc = HeadersOut.done hs rest → rest.length < s.length := by
  intro s
  cases s with
  | nil => intro cur acc hs rest h; exact absurd rfl h
  | cons b s' =>
    intro cur acc hs rest _ h
    simp only [readHL] at h
    by_cases hb : b = 10
    · rw [if_pos hb] at h
      by_cases hw : cur.all isWsB
      · rw [if_pos hw] at h
        cases h
        simp
      · rw [if_neg hw] at h
        have := readHL_done_le _ _ _ _ _ h
        simp only [List.length_cons]
        omega
    · rw [if_neg hb] at h
      have := readHL_done_le _ _ _ _ _ h
      simp only [List.length_cons]
      omega

theorem readHeaderLines_done_lt {s : List Nat} {hs : List (List Nat)} {rest : List Nat}
    (h : readHeaderLines s = HeadersOut.done hs rest) : rest.length < s.length := by
  cases s with
  | nil => simp [readHeaderLines, readHL] at h
  | cons b s' => exact readHL_done_lt _ _ _ _ _ (by simp) h

theorem scanF_fuel (ex : List Nat → Option JValue) :
    ∀ f₁ f₂ (s : List Nat) (st : ScanSt), s.length < f₁ → s.length < f₂ →
      scanF ex f₁ s st = scanF ex f₂ s st := by
  intro f₁
  induction f₁ with
  | zero => intro f₂ s st h; omega
  | succ f ih =>
    intro f₂ s st h1 h2
    match f₂, h2 with
    | g + 1, _ =>
      simp only [scanF]
      rcases hh : readHeaderLines s with _ | ⟨hs, rest⟩
      · rfl
      · dsimp only
        have hlt : rest.length < s.length := readHeaderLines_done_lt hh
        by_cases he : hs = []
        · simp [he]
        · rw [if_neg he, if_neg he]
          by_cases hz : contentLengthOf hs = 0
          · rw [if_pos hz, if_pos hz]
            exact ih g rest st (by omega) (by omega)
          · rw [if_neg hz, if_neg hz]
            by_cases hshort : rest.length < contentLengthOf hs + 4
            · rw [if_pos hshort, if_pos hshort]
            · rw [if_neg hshort, if_neg hshort]
              refine ih g _ _ ?_ ?_ <;>
                · have := List.length_drop (contentLengthOf hs + 4) rest
                  omega

theorem scan_eq_eof {ex : List Nat → Option JValue} {s : List Nat} (st : ScanSt)
    (h : readHeaderLines s = HeadersOut.eof) :
    scan ex s st = ⟨st.attempts, st.persisted, false, ExitKind.eofOk⟩ := by
  simp [scan, scanF, h]

theorem scan_eq_empty {ex : List Nat → Option JValue} {s : List Nat} (st : ScanSt)
    {rest : List Nat} (h : readHeaderLines s = HeadersOut.done [] rest) :
    scan ex s st = ⟨st.attempts, st.persisted, false, ExitKind.emptyOk⟩ := by
  simp [scan, scanF, h]

theorem scan_eq_zero {ex : List Nat → Option JValue} {s : List Nat} (st : ScanSt)
    {hs : List (List Nat)} {rest : List Nat}
    (h : readHeaderLines s = HeadersOut.done hs rest) (hne : hs ≠ [])
    (hz : contentLengthOf hs = 0) :
    scan ex s st = scan ex rest st := by
  have hlt : rest.length < s.length := readHeaderLines_done_lt h
  show scanF ex (s.length + 1) s st = scanF ex (rest.length + 1) rest st
  rw [show s.length + 1 = s.length + 1 from rfl]
  simp only [scanF, h, if_neg hne, if_pos hz]
  exact scanF_fuel ex s.length (rest.length + 1) rest st (by omega) (by omega)

theorem scan_eq_short {ex : List Nat → Option JValue} {s : List Nat} (st : ScanSt)
    {hs : List (List Nat)} {rest : List Nat}
    (h : readHeaderLines s = HeadersOut.done hs rest) (hne : hs ≠ [])
    (hz : contentLengthOf hs ≠ 0) (hshort : rest.length < contentLengthOf hs + 4) :
    scan ex s st = ⟨st.attempts, st.persisted, st.tmpExists, ExitKind.readErr⟩ := by
  simp [scan, scanF, h, if_neg hne, if_neg hz, if_pos hshort]

theorem scan_eq_body {ex : List Nat → Option JValue} {s : List Nat} (st : ScanSt)
    {hs : List (List Nat)} {rest : List Nat}
    (h : readHeaderLines s = HeadersOut.done hs rest) (hne : hs ≠ [])
    (hz : contentLengthOf hs ≠ 0) (hlong : contentLengthOf hs + 4 ≤ rest.length) :
    scan ex s st = scan ex (rest.drop (contentLengthOf hs + 4))
      ⟨st.attempts ++ [rest.take (contentLengthOf hs + 4)],
       st.persisted ++ persistOf ex (rest.take (contentLengthOf hs + 4)), true⟩ := by
  have hlt : rest.length < s.length := readHeaderLines_done_lt h
  have hns : ¬ rest.length < contentLengthOf hs + 4 := by omega
  show scanF ex (s.length + 1) s st = _
  simp only [scanF, h, if_neg hne, if_neg hz, if_neg hns]
  refine scanF_fuel ex s.length _ _ _ ?_ ?_ <;>
    · have := List.length_drop (contentLengthOf hs + 4) rest
      omega

theorem scanF_tmp_false (ex : List Nat → Option JValue) :
    ∀ (fuel : Nat) (s : List Nat) (st : ScanSt),
      (scanF ex fuel s st).exit ≠ ExitKind.readErr → (scanF ex fuel s st).tmpExists = false := by
  intro fuel
  induction fuel with
  | zero => intro s st h; exact absurd rfl h
  | succ f ih =>
    intro s st h
    revert h
    simp only [scanF]
    rcases hh : readHeaderLines s with _ | ⟨hs, rest⟩
    · intro _; rfl
    · dsimp only
      by_cases he : hs = []
      · simp [he]
      · rw [if_neg he]
        by_cases hz : contentLengthOf hs = 0
        · rw [if_pos hz]
          exact ih rest st
        · rw [if_neg hz]
          by_cases hshort : rest.length < contentLengthOf hs + 4
          · rw [if_pos hshort]
            intro h
            exact absurd rfl h
          · rw [if_neg hshort]
            exact ih _ _

/-! ## Claim C1 -/

/-- C1 is false as stated: the scanner does consume exactly
`Content-Length + 4` bytes after the blank line, but the trailing 4
terminator bytes are NOT discarded — the whole span, terminator included,
is written to the temp file and handed to the extraction subprocess.  On a
record with `Content-Length: 2` and body `ab` the recorded extraction
attempt is the 6-byte span `ab\r\n\r\n`, not `ab`. -/
theorem scan_terminator_in_attempt :
    (scan (fun _ => none) streamOne initSt).attempts = [strBytes "ab\r\n\r\n"]
    ∧ (scan (fun _ => none) streamOne initSt).attempts ≠ [strBytes "ab"] :=
  ⟨by decide, by decide⟩

/-- C1 (amended): for every record that declares a positive length, the
scanner consumes exactly (header bytes + Content-Length + 4) bytes: after
the header block it reads exactly `Content-Length + 4` bytes and continues
at the byte after them; the full `Content-Length + 4` span (terminator
included) is recorded as the body handed to extraction. -/
theorem scan_record_byte_accounting (ex : List Nat → Option JValue) (s : List Nat)
    (st : ScanSt) (hs : List (List Nat)) (rest : List Nat)
    (hhead : readHeaderLines s = HeadersOut.done hs rest) (hne : hs ≠ [])
    (hz : contentLengthOf hs ≠ 0) (hlong : contentLengthOf hs + 4 ≤ rest.length) :
    scan ex s st = scan ex (rest.drop (contentLengthOf hs + 4))
        ⟨st.attempts ++ [rest.take (contentLengthOf hs + 4)],
         st.persisted ++ persistOf ex (rest.take (contentLengthOf hs + 4)), true⟩
    ∧ (rest.take (contentLengthOf hs + 4)).length = contentLengthOf hs + 4
    ∧ s.length = (s.length - rest.length) + (contentLengthOf hs + 4)
        + (rest.drop (contentLengthOf hs + 4)).length := by
  refine ⟨scan_eq_body st hhead hne hz hlong, ?_, ?_⟩
  · rw [List.length_take]
    omega
  · have h1 := readHeaderLines_done_lt hhead
    rw [List.length_drop]
    omega

/-- Witness for `scan_record_byte_accounting` on the concrete one-record
stream `streamOne`. -/
theorem scan_record_byte_accounting_witness :
    scan (fun _ => none) streamOne initSt
      = scan (fun _ => none)
          ((strBytes "ab\r\n\r\n").drop (contentLengthOf [strBytes "Content-Length: 2"] + 4))
          ⟨initSt.attempts ++
              [(strBytes "ab\r\n\r\n").take (contentLengthOf [strBytes "Content-Length: 2"] + 4)],
           initSt.persisted ++ persistOf (fun _ => none)
              ((strBytes "ab\r\n\r\n").take (contentLengthOf [strBytes "Content-Length: 2"] + 4)),
           true⟩
    ∧ ((strBytes "ab\r\n\r\n").take (contentLengthOf [strBytes "Content-Length: 2"] + 4)).length
        = contentLengthOf [strBytes "Content-Length: 2"] + 4
    ∧ streamOne.length = (streamOne.length - (strBytes "ab\r\n\r\n").length)
        + (contentLengthOf [strBytes "Content-Length: 2"] + 4)
        + ((strBytes "ab\r\n\r\n").drop (contentLengthOf [strBytes "Content-Length: 2"] + 4)).length :=
  scan_record_byte_accounting (fun _ => none) streamOne initSt
    [strBytes "Content-Length: 2"] (strBytes "ab\r\n\r\n")
    (by decide) (by decide) (by decide) (by decide)

/-! ## Claim C2 -/

/-- C2 is false as stated: the filter compares `text.len()` — the UTF-8
*byte* length — against 100, not the character count.  `docMulti` has a
51-character text of 102 bytes: it is persisted (one document reaches the
sink) although its text does not exceed 100 characters. -/
theorem filter_counts_bytes_not_chars :
    (persistOf (fun _ => some docMulti) []).length = 1
    ∧ (textOf docMulti).length ≤ 100
    ∧ rustLen (textOf docMulti) = 102 :=
  ⟨by decide, by decide, by decide⟩

/-- C2 (amended): a scanned record's extracted document is persisted iff
`lang = "sv"`, `lang_prob > 0.8` (strict, so exactly 0.8 is rejected) and
the text's UTF-8 byte length exceeds 100; rejected documents leave no
trace in the output. -/
theorem scan_persist_iff_filter (ex : List Nat → Option JValue) (s : List Nat)
    (st : ScanSt) (hs : List (List Nat)) (rest : List Nat) (v : JValue)
    (hhead : readHeaderLines s = HeadersOut.done hs rest) (hne : hs ≠ [])
    (hz : contentLengthOf hs ≠ 0) (hlong : contentLengthOf hs + 4 ≤ rest.length)
    (hex : ex (rest.take (contentLengthOf hs + 4)) = some v) :
    (persistOf ex (rest.take (contentLengthOf hs + 4)) = [v]
      ↔ (langOf v = "sv" ∧ (4 : ℚ) / 5 < langProbOf v ∧ 100 < rustLen (textOf v)))
    ∧ (persistOf ex (rest.take (contentLengthOf hs + 4)) = []
      ↔ ¬ (langOf v = "sv" ∧ (4 : ℚ) / 5 < langProbOf v ∧ 100 < rustLen (textOf v)))
    ∧ (langProbOf v = 4 / 5 → persistOf ex (rest.take (contentLengthOf hs + 4)) = [])
    ∧ scan ex s st = scan ex (rest.drop (contentLengthOf hs + 4))
        ⟨st.attempts ++ [rest.take (contentLengthOf hs + 4)],
         st.persisted ++ persistOf ex (rest.take (contentLengthOf hs + 4)), true⟩ := by
  have hP : persistOf ex (rest.take (contentLengthOf hs + 4)) =
      if keepDoc v then [v] else [] := by
    simp [persistOf, hex]
  have hk : keepDoc v = true ↔
      (langOf v = "sv" ∧ (4 : ℚ) / 5 < langProbOf v ∧ 100 < rustLen (textOf v)) := by
    simp [keepDoc, Bool.and_eq_true, beq_iff_eq, decide_eq_true_eq, and_assoc]
  refine ⟨?_, ?_, ?_, scan_eq_body st hhead hne hz hlong⟩
  · rw [hP]
    by_cases hkd : keepDoc v = true
    · rw [if_pos hkd]
      exact iff_of_true rfl (hk.mp hkd)
    · rw [if_neg hkd]
      exact iff_of_false (by simp) (fun hp => hkd (hk.mpr hp))
  · rw [hP]
    by_cases hkd : keepDoc v = true
    · rw [if_pos hkd]
      exact iff_of_false (by simp) (not_not_intro (hk.mp hkd))
    · rw [if_neg hkd]
      exact iff_of_true rfl (fun hp => hkd (hk.mpr hp))
  · intro h08
    rw [hP, if_neg (fun hkd => absurd ((hk.mp hkd).2.1) (by rw [h08]; exact lt_irrefl _))]

/-- Witness for `scan_persist_iff_filter` on `streamOne` with the
extraction oracle returning `docAscii`. -/
theorem scan_persist_iff_filter_witness :
    (persistOf (fun _ => some docAscii)
        ((strBytes "ab\r\n\r\n").take (contentLengthOf [strBytes "Content-Length: 2"] + 4))
        = [docAscii]
      ↔ (langOf docAscii = "sv" ∧ (4 : ℚ) / 5 < langProbOf docAscii
          ∧ 100 < rustLen (textOf docAscii)))
    ∧ (persistOf (fun _ => some docAscii)
        ((strBytes "ab\r\n\r\n").take (contentLengthOf [strBytes "Content-Length: 2"] + 4))
        = []
      ↔ ¬ (langOf docAscii = "sv" ∧ (4 : ℚ) / 5 < langProbOf docAscii
          ∧ 100 < rustLen (textOf docAscii)))
    ∧ (langProbOf docAscii = 4 / 5 → persistOf (fun _ => some docAscii)
        ((strBytes "ab\r\n\r\n").take (contentLengthOf [strBytes "Content-Length: 2"] + 4)) = [])
    ∧ scan (fun _ => some docAscii) streamOne initSt
      = scan (fun _ => some docAscii)
          ((strBytes "ab\r\n\r\n").drop (contentLengthOf [strBytes "Content-Length: 2"] + 4))
          ⟨initSt.attempts ++
              [(strBytes "ab\r\n\r\n").take (contentLengthOf [strBytes "Content-Length: 2"] + 4)],
           initSt.persisted ++ persistOf (fun _ => some docAscii)
              ((strBytes "ab\r\n\r\n").take (contentLengthOf [strBytes "Content-Length: 2"] + 4)),
           true⟩ :=
  scan_persist_iff_filter (fun _ => some docAscii) streamOne initSt
    [strBytes "Content-Length: 2"] (strBytes "ab\r\n\r\n") docAscii
    (by decide) (by decide) (by decide) (by decide) rfl

/-! ## Claim C3 -/

/-- C3: domain extraction keeps the last three labels when the final two
labels form a known multi-part suffix and at least three labels exist;
otherwise the last two labels; a host with fewer than two labels (no dot)
is returned unchanged; `sub.example.co.uk ↦ example.co.uk` and
`news.google.com ↦ google.com`. -/
theorem extract_domain_spec :
    (∀ ls : List (List Char), (∀ p ∈ ls, '.' ∉ p) → 2 ≤ ls.length →
      extract_domain_host (joinDot ls) =
        if multiTlds.contains (joinDot (ls.drop (ls.length - 2))) ∧ 3 ≤ ls.length
        then joinDot (ls.drop (ls.length - 3))
        else joinDot (ls.drop (ls.length - 2)))
    ∧ (∀ host : List Char, '.' ∉ host → extract_domain_host host = host)
    ∧ extract_domain_host "sub.example.co.uk".data = "example.co.uk".data
    ∧ extract_domain_host "news.google.com".data = "google.com".data := by
  refine ⟨?_, ?_, by decide, by decide⟩
  · intro ls hnd hlen
    have hne : ls ≠ [] := by
      intro h
      subst h
      simp at hlen
    have hsplit : splitDot (joinDot ls) = ls := splitDot_joinDot ls hne hnd
    unfold extract_domain_host
    simp only [hsplit]
    rw [if_neg (by omega)]
  · intro host hnd
    unfold extract_domain_host
    simp [splitDot_of_no_dot hnd]

/-- Witness for `extract_domain_spec` at the labels of
`sub.example.co.uk` and at the dot-free host `localhost`. -/
theorem extract_domain_spec_witness :
    (extract_domain_host (joinDot ["sub".data, "example".data, "co".data, "uk".data]) =
      if multiTlds.contains (joinDot ((["sub".data, "example".data, "co".data, "uk".data] :
              List (List Char)).drop
            ((["sub".data, "example".data, "co".data, "uk".data] : List (List Char)).length - 2)))
          ∧ 3 ≤ (["sub".data, "example".data, "co".data, "uk".data] : List (List Char)).length
      then joinDot ((["sub".data, "example".data, "co".data, "uk".data] :
              List (List Char)).drop
            ((["sub".data, "example".data, "co".data, "uk".data] : List (List Char)).length - 3))
      else joinDot ((["sub".data, "example".data, "co".data, "uk".data] :
              List (List Char)).drop
            ((["sub".data, "example".data, "co".data, "uk".data] : List (List Char)).length - 2)))
    ∧ extract_domain_host "localhost".data = "localhost".data :=
  ⟨extract_domain_spec.1 ["sub".data, "example".data, "co".data, "uk".data]
      (by decide) (by decide),
   extract_domain_spec.2.1 "localhost".data (by decide)⟩

/-! ## Claim C4 -/

/-- C4 is false as stated: when the subprocess emits `lang_prob` as a JSON
*number* (here 0.9), `Value::as_str` yields `None`, the parsed probability
defaults to 0, and the filter rejects the document even though 0.9 > 0.8. -/
theorem lang_prob_number_defaults_zero :
    langProbOf docNumProb = 0
    ∧ (4 : ℚ) / 5 < 9 / 10
    ∧ keepDoc docNumProb = false :=
  ⟨by decide, by decide, by decide⟩

/-- C4 (amended): only a string-encoded `lang_prob` is parsed to its
numeric value; a JSON-number `lang_prob` is read as `None` by
`Value::as_str` and the probability defaults to 0. -/
theorem lang_prob_parsing (v : JValue) :
    (∀ n : ℚ, v.get "lang_prob" = some (JValue.num n) → langProbOf v = 0)
    ∧ (∀ s : String, ∀ q : ℚ, v.get "lang_prob" = some (JValue.str s) →
        parseF64 s.data = some q → langProbOf v = q) := by
  constructor
  · intro n hget
    simp [langProbOf, hget, JValue.asStr]
  · intro s q hget hq
    simp [langProbOf, hget, JValue.asStr, hq]

/-- Witness for `lang_prob_parsing`: number-encoded 0.9 parses to 0,
string-encoded "0.9" parses to 9/10. -/
theorem lang_prob_parsing_witness :
    langProbOf docNumProb = 0 ∧ langProbOf docAscii = 9 / 10 :=
  ⟨(lang_prob_parsing docNumProb).1 (9 / 10) rfl,
   (lang_prob_parsing docAscii).2 "0.9" (9 / 10) rfl (by decide)⟩

/-! ## Claim C5 -/

/-- C5: a record whose header block has no length field, an unparsable
one, or `Content-Length: 0` contributes nothing — no body bytes are
consumed and no extraction attempt is made; scanning continues directly
after the blank line with an unchanged state. -/
theorem scan_no_length_no_body (ex : List Nat → Option JValue) (s : List Nat)
    (st : ScanSt) (hs : List (List Nat)) (rest : List Nat)
    (hhead : readHeaderLines s = HeadersOut.done hs rest) (hne : hs ≠ [])
    (hz : contentLengthOf hs = 0) :
    scan ex s st = scan ex rest st :=
  scan_eq_zero st hhead hne hz

/-- Witness for `scan_no_length_no_body` on a stream whose first record
has no `Content-Length` header. -/
theorem scan_no_length_no_body_witness :
    scan (fun _ => none) streamNoLen initSt
      = scan (fun _ => none) (strBytes "Content-Length: 2\r\n\r\nab\r\n\r\n") initSt :=
  scan_no_length_no_body (fun _ => none) streamNoLen initSt
    [strBytes "WARC-Type: warcinfo"] (strBytes "Content-Length: 2\r\n\r\nab\r\n\r\n")
    (by decide) (by decide) (by decide)

/-! ## Claim C6 -/

/-- C6 is false as stated: on the error exit caused by a failed body read
(`read_exact` hitting end-of-stream) the temp file is NOT removed.  On
`streamTrunc` the first record writes the temp file, the second record's
body read fails, and the scan ends in the error exit with the temp file
still in existence. -/
theorem scan_tmp_survives_read_error :
    (scan (fun _ => none) streamTrunc initSt).exit = ExitKind.readErr
    ∧ (scan (fun _ => none) streamTrunc initSt).tmpExists = true :=
  ⟨by decide, by decide⟩

/-- C6 (amended): on both normal termination paths — EOF during header
read and the empty-header-block break — the temp file is removed before
returning, so a scan that does not end in the read-error exit leaves no
temp file. -/
theorem scan_tmp_removed_on_ok (ex : List Nat → Option JValue) (s : List Nat)
    (st : ScanSt) (h : (scan ex s st).exit ≠ ExitKind.readErr) :
    (scan ex s st).tmpExists = false :=
  scanF_tmp_false ex (s.length + 1) s st h

/-- Witness for `scan_tmp_removed_on_ok` on the complete one-record
stream. -/
theorem scan_tmp_removed_on_ok_witness :
    (scan (fun _ => none) streamOne initSt).exit ≠ ExitKind.readErr
    ∧ (scan (fun _ => none) streamOne initSt).tmpExists = false :=
  ⟨by decide, scan_tmp_removed_on_ok (fun _ => none) streamOne initSt (by decide)⟩

/-! ## Claim C7 -/

/-- C7: a non-2xx response is not fatal — `fetch_and_write` logs, sleeps
the fixed 1000 ms backoff, returns `Ok` so the caller continues with the
next record, and appends nothing to the output archive file. -/
theorem fetch_non2xx_skip (rec : CcRecord) (resp : HttpResponse)
    (gunzip : List Nat → Option (List Nat)) (h : is2xx resp.status = false) :
    fetch_and_write rec resp gunzip =
      ⟨rangeEndOf rec.offset rec.length, [], 1000, true⟩ := by
  simp [fetch_and_write, h]

/-- Witness for `fetch_non2xx_skip` at a concrete 404 response. -/
theorem fetch_non2xx_skip_witness :
    fetch_and_write ⟨"http://a.example.se/", "f.warc.gz", 3, 5⟩ ⟨404, [1, 2, 3]⟩
        (fun l => some l)
      = ⟨rangeEndOf 3 5, [], 1000, true⟩ :=
  fetch_non2xx_skip ⟨"http://a.example.se/", "f.warc.gz", 3, 5⟩ ⟨404, [1, 2, 3]⟩
    (fun l => some l) (by decide)

/-! ## Claim C8 -/

/-- C8: domain-order reversal is an involution on every dot-separated
string, and `se.example.www` reverses to `www.example.se`. -/
theorem reverse_domain_involution :
    (∀ h : List Char, reverse_domain (reverse_domain h) = h)
    ∧ reverse_domain "se.example.www".data = "www.example.se".data
    ∧ reverse_domain "www.example.se".data = "se.example.www".data :=
  ⟨reverse_domain_reverse_domain, by decide, by decide⟩

/-! ## Claim C10 -/

/-- C10 is false as stated: with `length = 0` and `offset = 1` the wrapped
minuend is 1, the subtraction does not underflow, and the computed range
end is 0 (a `bytes=1-0` request would be issued); conversely underflow
does occur for `length = 1` at `offset = 2^64 - 1` where the addition
wraps to 0. -/
theorem range_end_underflow_cex :
    rangeSubUnderflows 1 0 = false
    ∧ rangeEndOf 1 0 = 0
    ∧ rangeSubUnderflows (2 ^ 64 - 1) 1 = true :=
  ⟨by decide, by decide, by decide⟩

/-- C10 (amended): the subtraction in `offset + length - 1` underflows iff
`(offset + length) mod 2^64 = 0`; for `length ≥ 1` with
`offset + length < 2^64` there is no underflow and the computed end equals
`offset + length - 1`; for `length = 0` it underflows iff `offset = 0`. -/
theorem range_end_underflow_iff (offset length : Nat)
    (ho : offset < 2 ^ 64) (hl : length < 2 ^ 64) :
    (rangeSubUnderflows offset length = true ↔ (offset + length) % 2 ^ 64 = 0)
    ∧ (1 ≤ length → offset + length < 2 ^ 64 →
        rangeSubUnderflows offset length = false
        ∧ rangeEndOf offset length = offset + length - 1)
    ∧ (length = 0 → (rangeSubUnderflows offset length = true ↔ offset = 0)) := by
  unfold rangeSubUnderflows rangeEndOf wrapAdd wrapSub
  refine ⟨by simp, ?_, ?_⟩
  · intro h1 h2
    constructor
    · simp only [decide_eq_false_iff_not]
      omega
    · omega
  · intro h0
    subst h0
    simp only [decide_eq_true_eq]
    omega

/-- Witness for `range_end_underflow_iff` at `offset = 0`, `length = 100`. -/
theorem range_end_underflow_iff_witness :
    ((rangeSubUnderflows 0 100 = true ↔ (0 + 100) % 2 ^ 64 = 0)
    ∧ (1 ≤ 100 → 0 + 100 < 2 ^ 64 →
        rangeSubUnderflows 0 100 = false ∧ rangeEndOf 0 100 = 0 + 100 - 1)
    ∧ (100 = 0 → (rangeSubUnderflows 0 100 = true ↔ 0 = 0))) :=
  range_end_underflow_iff 0 100 (by norm_num) (by norm_num)

/-! ## Helper lemmas: parsing rendered numbers -/

theorem takeWhile_split {p : Char → Bool} : ∀ (a b : List Char),
    (∀ c ∈ a, p c = true) → (∀ c, b.head? = some c → p c = false) →
    (a ++ b).takeWhile p = a ∧ (a ++ b).dropWhile p = b := by
  intro a
  induction a with
  | nil =>
    intro b _ hb
    cases b with
    | nil => exact ⟨rfl, rfl⟩
    | cons c t =>
      simp only [List.nil_append]
      rw [List.takeWhile_cons, List.dropWhile_cons, hb c rfl]
      simp
  | cons x a' ih =>
    intro b ha hb
    have hx : p x = true := ha x (List.mem_cons_self _ _)
    have hrec := ih b (fun c hc => ha c (List.mem_cons_of_mem _ hc)) hb
    simp only [List.cons_append]
    rw [List.takeWhile_cons, List.dropWhile_cons, hx]
    simp only [if_true]
    exact ⟨by rw [hrec.1], hrec.2⟩

theorem takeWhile_all {p : Char → Bool} (l : List Char) (h : ∀ c ∈ l, p c = true) :
    l.takeWhile p = l ∧ l.dropWhile p = [] := by
  have := takeWhile_split l [] h (by intro c hc; simp at hc)
  rwa [List.append_nil] at this

theorem digitsVal_replicate_zero (k : Nat) : digitsVal (List.replicate k '0') = 0 := by
  induction k with
  | zero => rfl
  | succ n ih =>
    rw [List.replicate_succ,
      show ('0' :: List.replicate n '0') = ['0'] ++ List.replicate n '0' from rfl,
      digitsVal_append, ih]
    simp [digitsVal, digitVal]

theorem digitsVal_padZeros (d : Nat) (l : List Char) :
    digitsVal (padZeros d l) = digitsVal l := by
  unfold padZeros
  rw [digitsVal_append, digitsVal_replicate_zero]
  simp

theorem padZeros_length {d : Nat} {l : List Char} (h : l.length ≤ d) :
    (padZeros d l).length = d := by
  simp only [padZeros, List.length_append, List.length_replicate]
  omega

theorem padZeros_all_digit {d : Nat} {l : List Char} (h : ∀ c ∈ l, isDigitC c = true) :
    ∀ c ∈ padZeros d l, isDigitC c = true := by
  intro c hc
  rcases List.mem_append.mp hc with h0 | h1
  · have hc0 : c = '0' := List.eq_of_mem_replicate h0
    subst hc0
    decide
  · exact h c h1

theorem natDigits_length_le {F d : Nat} (hF : F < 10 ^ d) (hd : 1 ≤ d) :
    (natDigits F).length ≤ d := by
  rcases Nat.eq_zero_or_pos F with rfl | hF1
  · show (natDigits 0).length ≤ d
    rw [show natDigits 0 = ['0'] from rfl]
    simpa using hd
  · obtain ⟨lo, hi⟩ := natDigits_length_bounds F hF1
    by_contra hgt
    push_neg at hgt
    have : 10 ^ d ≤ 10 ^ ((natDigits F).length - 1) := Nat.pow_le_pow_right (by omega) (by omega)
    omega

theorem takeSign_no_sign {l : List Char} (h : ∀ c, l.head? = some c → isDigitC c = true) :
    takeSign l = (false, l) := by
  have h1 : ¬ l.head? = some '-' := by
    intro hc
    exact absurd (h '-' hc) (by decide)
  have h2 : ¬ l.head? = some '+' := by
    intro hc
    exact absurd (h '+' hc) (by decide)
  unfold takeSign
  rw [if_neg h1, if_neg h2]

theorem takeSign_minus (r : List Char) : takeSign ('-' :: r) = (true, r) := by
  simp [takeSign]

theorem head_digit_of_all {l : List Char} (hd : ∀ x ∈ l, isDigitC x = true) :
    ∀ x, l.head? = some x → isDigitC x = true := by
  intro x hx
  exact hd x (List.mem_of_mem_head? hx)

theorem parseUsizeC_natDigits (n : Nat) (h : n < 2 ^ 64) :
    parseUsizeC (natDigits n) = some n := by
  have hplus : ¬ (natDigits n).head? = some '+' := by
    intro hc
    have hm : '+' ∈ natDigits n := List.mem_of_mem_head? hc
    exact absurd (natDigits_all_digit n '+' hm) (by decide)
  simp only [parseUsizeC, if_neg hplus]
  rw [if_pos ⟨natDigits_ne_nil n, List.all_eq_true.mpr (natDigits_all_digit n),
    by rw [digitsVal_natDigits]; exact h⟩]
  rw [digitsVal_natDigits]

theorem roundQ_abs_le (x : ℚ) : |(roundQ x : ℚ) - x| ≤ 1 / 2 := by
  unfold roundQ
  have h1 := Int.floor_le (x + 1 / 2)
  have h2 := Int.lt_floor_add_one (x + 1 / 2)
  rw [abs_le]
  constructor <;> linarith

theorem roundQ_le_of_le {a : ℚ} {k : ℤ} (h : (k : ℚ) ≤ a) : k ≤ roundQ a := by
  unfold roundQ
  exact Int.le_floor.mpr (by linarith)

theorem roundQ_lt_of_lt {a : ℚ} {k : ℤ} (h : a < k) : roundQ a ≤ k := by
  unfold roundQ
  exact Int.lt_add_one_iff.mp (Int.floor_lt.mpr (by push_cast; linarith))

theorem parseExpPart_nil (m : ℚ) : parseExpPart m [] = some m := by
  simp [parseExpPart]

theorem parseExpPart_E (m : ℚ) (e : ℤ) :
    parseExpPart m ('E' :: intDigits e) = some (m * (10 : ℚ) ^ e) := by
  have hds := natDigits_all_digit e.natAbs
  have htw := takeWhile_all (natDigits e.natAbs) hds
  have hne : natDigits e.natAbs ≠ [] := natDigits_ne_nil _
  by_cases he : e < 0
  · have hint : intDigits e = '-' :: natDigits e.natAbs := by
      simp [intDigits, he]
    rw [hint]
    simp only [parseExpPart, List.head?_cons, List.tail_cons, takeSign_minus,
      htw.1, htw.2, digitsVal_natDigits]
    rw [if_pos (Or.inr trivial), if_pos trivial, show (-(e.natAbs : ℤ)) = e by omega]
    simp [hne]
  · have hint : intDigits e = natDigits e.natAbs := by
      simp [intDigits, he]
    rw [hint]
    simp only [parseExpPart, List.head?_cons, List.tail_cons,
      takeSign_no_sign (head_digit_of_all hds), htw.1, htw.2, digitsVal_natDigits]
    simp [hne, show ((e.natAbs : ℤ)) = e by omega]

theorem parseF64_unsigned (ipl pad rest : List Char)
    (hip : ipl ≠ []) (hipd : ∀ c ∈ ipl, isDigitC c = true)
    (hpadd : ∀ c ∈ pad, isDigitC c = true)
    (hrest : ∀ c, rest.head? = some c → isDigitC c = false) :
    parseF64 (ipl ++ '.' :: (pad ++ rest)) =
      parseExpPart ((digitsVal ipl : ℚ) + (digitsVal pad : ℚ) / 10 ^ pad.length) rest := by
  have hsign : takeSign (ipl ++ '.' :: (pad ++ rest)) = (false, ipl ++ '.' :: (pad ++ rest)) := by
    apply takeSign_no_sign
    intro c hc
    cases ipl with
    | nil => exact absurd rfl hip
    | cons x t =>
      simp only [List.cons_append, List.head?_cons, Option.some_inj] at hc
      subst hc
      exact hipd _ (List.mem_cons_self _ _)
  have hsplit1 := takeWhile_split ipl ('.' :: (pad ++ rest)) hipd
    (by intro c hc; simp only [List.head?_cons, Option.some_inj] at hc; subst hc; decide)
  have hsplit2 := takeWhile_split pad rest hpadd hrest
  simp only [parseF64, hsign, hsplit1.1, hsplit1.2, List.head?_cons, List.tail_cons,
    hsplit2.1, hsplit2.2]
  rw [if_pos trivial, if_neg (fun hb => hip hb.1)]
  simp

theorem parseF64_signed (ipl pad rest : List Char)
    (hip : ipl ≠ []) (hipd : ∀ c ∈ ipl, isDigitC c = true)
    (hpadd : ∀ c ∈ pad, isDigitC c = true)
    (hrest : ∀ c, rest.head? = some c → isDigitC c = false) :
    parseF64 ('-' :: (ipl ++ '.' :: (pad ++ rest))) =
      (parseExpPart ((digitsVal ipl : ℚ) + (digitsVal pad : ℚ) / 10 ^ pad.length) rest).map
        (fun v => -v) := by
  have hsplit1 := takeWhile_split ipl ('.' :: (pad ++ rest)) hipd
    (by intro c hc; simp only [List.head?_cons, Option.some_inj] at hc; subst hc; decide)
  have hsplit2 := takeWhile_split pad rest hpadd hrest
  simp only [parseF64, takeSign_minus, hsplit1.1, hsplit1.2, List.head?_cons, List.tail_cons,
    hsplit2.1, hsplit2.2]
  rw [if_pos trivial, if_neg (fun hb => hip hb.1)]
  simp

theorem parseF64_fmtFixed (d : Nat) (q : ℚ) :
    parseF64 (fmtFixed d q) = some ((roundQ (q * 10 ^ d) : ℚ) / 10 ^ d) := by
  have hpow : (0 : ℕ) < 10 ^ d := Nat.pos_pow_of_pos d (by omega)
  set n := roundQ (q * 10 ^ d) with hn
  set m := n.natAbs with hm
  have hF : m % 10 ^ d < 10 ^ d := Nat.mod_lt _ hpow
  have hipd := natDigits_all_digit (m / 10 ^ d)
  have hip := natDigits_ne_nil (m / 10 ^ d)
  have hpadd : ∀ c ∈ padZeros d (natDigits (m % 10 ^ d)), isDigitC c = true :=
    padZeros_all_digit (natDigits_all_digit (m % 10 ^ d))
  have hrest : ∀ c : Char, ([] : List Char).head? = some c → isDigitC c = false := by simp
  have hfrac : (digitsVal (padZeros d (natDigits (m % 10 ^ d))) : ℚ) /
      10 ^ (padZeros d (natDigits (m % 10 ^ d))).length
      = ((m % 10 ^ d : ℕ) : ℚ) / (10 : ℚ) ^ d := by
    rw [digitsVal_padZeros, digitsVal_natDigits]
    rcases Nat.eq_zero_or_pos (m % 10 ^ d) with hz | hpos
    · rw [hz]
      simp
    · have hd1 : 1 ≤ d := by
        rcases Nat.eq_zero_or_pos d with rfl | hdp
        · rw [pow_zero, Nat.mod_one] at hpos
          omega
        · omega
      rw [padZeros_length (natDigits_length_le hF hd1)]
  have hval : (digitsVal (natDigits (m / 10 ^ d)) : ℚ) + ((m % 10 ^ d : ℕ) : ℚ) / (10 : ℚ) ^ d
      = (m : ℚ) / 10 ^ d := by
    rw [digitsVal_natDigits]
    have h10 : ((10 : ℚ) ^ d) ≠ 0 := by positivity
    have hnat : ((m / 10 ^ d : ℕ) : ℚ) * 10 ^ d + ((m % 10 ^ d : ℕ) : ℚ) = (m : ℚ) := by
      exact_mod_cast congrArg (Nat.cast : ℕ → ℚ) (Nat.div_add_mod' m (10 ^ d))
    field_simp
    linarith [hnat]
  simp only [fmtFixed]
  rw [← hn, ← hm]
  by_cases hneg : n < 0
  · rw [if_pos hneg, List.singleton_append, List.cons_append,
      show padZeros d (natDigits (m % 10 ^ d)) = padZeros d (natDigits (m % 10 ^ d)) ++ []
        from (List.append_nil _).symm,
      parseF64_signed _ _ _ hip hipd hpadd hrest, parseExpPart_nil]
    simp only [Option.map_some']
    have hcast : (m : ℚ) = -(n : ℚ) := by
      rw [hm, Int.cast_natAbs, Int.cast_abs,
        abs_of_neg (show ((n : ℚ)) < 0 by exact_mod_cast hneg)]
    rw [hfrac, hval, hcast]
    congr 1
    ring
  · rw [if_neg hneg, List.nil_append,
      show padZeros d (natDigits (m % 10 ^ d)) = padZeros d (natDigits (m % 10 ^ d)) ++ []
        from (List.append_nil _).symm,
      parseF64_unsigned _ _ _ hip hipd hpadd hrest, parseExpPart_nil]
    have hcast : (m : ℚ) = (n : ℚ) := by
      rw [hm, Int.cast_natAbs, Int.cast_abs, abs_of_nonneg (show (0 : ℚ) ≤ (n : ℚ) by
        exact_mod_cast not_lt.mp hneg)]
    rw [hfrac, hval, hcast]

theorem fmtFixed_roundtrip (d : Nat) (q : ℚ) :
    ∃ v : ℚ, parseF64 (fmtFixed d q) = some v ∧ |v - q| ≤ 1 / (2 * 10 ^ d) := by
  refine ⟨_, parseF64_fmtFixed d q, ?_⟩
  have hb := roundQ_abs_le (q * 10 ^ d)
  have h10 : (0 : ℚ) < 10 ^ d := by positivity
  rw [show (roundQ (q * 10 ^ d) : ℚ) / 10 ^ d - q
      = ((roundQ (q * 10 ^ d) : ℚ) - q * 10 ^ d) / 10 ^ d by field_simp; ring]
  rw [abs_div, abs_of_pos h10,
    show (1 : ℚ) / (2 * 10 ^ d) = (1 / 2) / 10 ^ d by ring]
  exact (div_le_div_iff_of_pos_right h10).mpr hb

theorem decExp_spec (x : ℚ) (hx : 0 < x) :
    (10 : ℚ) ^ (decExp x) ≤ x ∧ x < 10 ^ (decExp x + 1) := by
  have hden : 0 < x.den := x.den_pos
  set K := (natDigits x.den).length with hK
  have hdenK : x.den < 10 ^ K := (natDigits_length_bounds x.den (by omega)).2
  have hnum : 1 ≤ x.num := Rat.num_pos.mpr hx
  have hx10 : (1 : ℚ) ≤ x * 10 ^ K := by
    rw [← Rat.num_div_den x, div_mul_eq_mul_div, le_div_iff₀ (by exact_mod_cast hden)]
    have h1 : ((x.den : ℚ)) ≤ (10 : ℚ) ^ K := by exact_mod_cast hdenK.le
    have h2 : (1 : ℚ) ≤ (x.num : ℚ) := by exact_mod_cast hnum
    have h3 : (0 : ℚ) < (10 : ℚ) ^ K := by positivity
    nlinarith
  set tz : ℤ := ⌊x * 10 ^ K⌋ with htz
  have htz1 : 1 ≤ tz := Int.le_floor.mpr (by exact_mod_cast hx10)
  set t : Nat := tz.toNat with ht
  have htcast : ((t : ℤ)) = tz := Int.toNat_of_nonneg (by omega)
  have hfloor_le : ((tz : ℚ)) ≤ x * 10 ^ K := Int.floor_le _
  have hlt : x * 10 ^ K < (tz : ℚ) + 1 := Int.lt_floor_add_one _
  obtain ⟨hLlo, hLhi⟩ := natDigits_length_bounds t (by omega)
  set L := (natDigits t).length with hL
  have hL1 : 1 ≤ L := by
    rcases h' : natDigits t with _ | ⟨c, u⟩
    · exact absurd h' (natDigits_ne_nil _)
    · rw [hL, h']
      simp
  have hde : decExp x = ((L : ℤ)) - 1 - ((K : ℤ)) := rfl
  have h10K : (0 : ℚ) < (10 : ℚ) ^ K := by positivity
  have hlo : (10 : ℚ) ^ ((L : ℕ) - 1 : ℕ) ≤ x * 10 ^ K := by
    calc ((10 : ℚ) ^ ((L : ℕ) - 1 : ℕ)) ≤ ((t : ℚ)) := by exact_mod_cast hLlo
      _ = ((tz : ℚ)) := by exact_mod_cast congrArg (Int.cast : ℤ → ℚ) htcast
      _ ≤ x * 10 ^ K := hfloor_le
  have hhi : x * 10 ^ K < (10 : ℚ) ^ (L : ℕ) := by
    have ht1 : ((tz : ℚ)) + 1 ≤ ((10 : ℚ) ^ (L : ℕ)) := by
      have : (t : ℕ) + 1 ≤ 10 ^ (L : ℕ) := by omega
      have hcast2 : ((t : ℚ)) + 1 ≤ ((10 : ℚ) ^ (L : ℕ)) := by exact_mod_cast this
      have : ((t : ℚ)) = ((tz : ℚ)) := by exact_mod_cast congrArg (Int.cast : ℤ → ℚ) htcast
      linarith
    linarith
  rw [hde]
  constructor
  · rw [show ((L : ℤ)) - 1 - ((K : ℤ)) = (((L - 1 : ℕ) : ℤ)) - ((K : ℤ)) by omega,
      zpow_sub₀ (by norm_num : (10 : ℚ) ≠ 0), zpow_natCast, zpow_natCast,
      div_le_iff₀ h10K]
    exact hlo
  · rw [show ((L : ℤ)) - 1 - ((K : ℤ)) + 1 = (((L : ℕ) : ℤ)) - ((K : ℤ)) by omega,
      zpow_sub₀ (by norm_num : (10 : ℚ) ≠ 0), zpow_natCast, zpow_natCast,
      lt_div_iff₀ h10K]
    exact hhi

theorem digitsVal_singleton (c : Char) : digitsVal [c] = digitVal c := by
  simp [digitsVal]

theorem fmtSci_zero_parse (d : Nat) : parseF64 (fmtSci d 0) = some 0 := by
  have hsh : fmtSci d 0 = ['0'] ++ '.' :: (List.replicate d '0' ++ ('E' :: intDigits 0)) := by
    rw [show intDigits 0 = ['0'] from rfl]
    simp [fmtSci]
  rw [hsh, parseF64_unsigned ['0'] (List.replicate d '0') ('E' :: intDigits 0)
    (by simp) (by intro c hc; simp at hc; subst hc; decide)
    (by intro c hc; have := List.eq_of_mem_replicate hc; subst this; decide)
    (by intro c hc; simp at hc; subst hc; decide)]
  rw [parseExpPart_E]
  rw [digitsVal_replicate_zero, digitsVal_singleton,
    show digitVal '0' = 0 by decide]
  norm_num

theorem fmtSci_roundtrip (d : Nat) (q : ℚ) :
    ∃ v : ℚ, parseF64 (fmtSci d q) = some v ∧ |v - q| ≤ |q| / (2 * 10 ^ d) := by
  by_cases hq : q = 0
  · subst hq
    exact ⟨0, fmtSci_zero_parse d, by simp⟩
  · set x := |q| with hxdef
    have hx : 0 < x := abs_pos.mpr hq
    obtain ⟨hel, heh⟩ := decExp_spec x hx
    set e := decExp x with he
    set y : ℚ := x * 10 ^ ((d : ℤ) - e) with hy
    have h10z : ((10 : ℚ)) ≠ 0 := by norm_num
    have h10p : (0 : ℚ) < (10 : ℚ) ^ ((d : ℤ) - e) := by positivity
    have hylo : ((10 : ℚ) ^ d) ≤ y := by
      have hmul := mul_le_mul_of_nonneg_right hel (le_of_lt h10p)
      rw [← zpow_add₀ h10z, show e + ((d : ℤ) - e) = ((d : ℕ) : ℤ) by ring,
        zpow_natCast] at hmul
      exact hmul
    have hyhi : y < (10 : ℚ) ^ (d + 1) := by
      have hmul := mul_lt_mul_of_pos_right heh h10p
      rw [← zpow_add₀ h10z, show e + 1 + ((d : ℤ) - e) = ((d + 1 : ℕ) : ℤ) by push_cast; ring,
        zpow_natCast] at hmul
      exact hmul
    set n0 : ℤ := roundQ y with hn0
    have hn0lo : ((10 ^ d : ℕ) : ℤ) ≤ n0 := roundQ_le_of_le (by exact_mod_cast hylo)
    have hn0hi : n0 ≤ ((10 ^ (d + 1) : ℕ) : ℤ) := roundQ_lt_of_lt (by exact_mod_cast hyhi)
    have hpowpos : (0 : ℤ) < ((10 ^ d : ℕ) : ℤ) := by positivity
    set m0 : ℕ := n0.toNat with hm0
    have hm0c : ((m0 : ℤ)) = n0 := Int.toNat_of_nonneg (by omega)
    have hm0lo : 10 ^ d ≤ m0 := by
      have : ((10 ^ d : ℕ) : ℤ) ≤ ((m0 : ℤ)) := by omega
      exact_mod_cast this
    have hm0hi : m0 ≤ 10 ^ (d + 1) := by
      have : ((m0 : ℤ)) ≤ ((10 ^ (d + 1) : ℕ) : ℤ) := by omega
      exact_mod_cast this
    set m : ℕ := if m0 = 10 ^ (d + 1) then 10 ^ d else m0 with hm
    set e2 : ℤ := if m0 = 10 ^ (d + 1) then e + 1 else e with he2
    have hmlo : 10 ^ d ≤ m ∧ m < 10 ^ (d + 1) := by
      by_cases hcl : m0 = 10 ^ (d + 1)
      · rw [hm, if_pos hcl]
        exact ⟨le_refl _, Nat.pow_lt_pow_right (by omega) (by omega)⟩
      · rw [hm, if_neg hcl]
        exact ⟨hm0lo, by omega⟩
    have hval_eq : ((m : ℚ)) * (10 : ℚ) ^ (e2 - (d : ℤ)) = ((m0 : ℚ)) * (10 : ℚ) ^ (e - (d : ℤ)) := by
      by_cases hcl : m0 = 10 ^ (d + 1)
      · rw [hm, he2, if_pos hcl, if_pos hcl, hcl]
        push_cast
        rw [← zpow_natCast (10 : ℚ) d, ← zpow_natCast (10 : ℚ) (d + 1),
          ← zpow_add₀ h10z, ← zpow_add₀ h10z]
        congr 1
        push_cast
        ring
      · rw [hm, he2, if_neg hcl, if_neg hcl]
    have hLm : (natDigits m).length = d + 1 := natDigits_length_eq hmlo.1 hmlo.2
    obtain ⟨c0, ds, hds⟩ := List.exists_cons_of_ne_nil (natDigits_ne_nil m)
    have hdsl : ds.length = d := by
      have := hLm
      rw [hds] at this
      simpa using this
    have hdigits : ∀ c ∈ c0 :: ds, isDigitC c = true := by
      rw [← hds]
      exact natDigits_all_digit m
    have hmval : ((digitsVal [c0] : ℚ)) + ((digitsVal ds : ℚ)) / 10 ^ ds.length
        = ((m : ℚ)) / 10 ^ d := by
      have hv := digitsVal_natDigits m
      rw [hds, show (c0 :: ds) = [c0] ++ ds from rfl, digitsVal_append] at hv
      rw [hdsl]
      have h10d : ((10 : ℚ) ^ d) ≠ 0 := by positivity
      field_simp
      have : ((digitsVal [c0] * 10 ^ ds.length + digitsVal ds : ℕ) : ℚ) = ((m : ℕ) : ℚ) := by
        exact_mod_cast congrArg (Nat.cast : ℕ → ℚ) hv
      push_cast at this
      rw [hdsl] at this
      linarith
    have hfmt : fmtSci d q =
        (if q < 0 then ['-'] else []) ++ c0 :: '.' :: (ds ++ 'E' :: intDigits e2) := by
      simp only [fmtSci, if_neg hq]
      rw [← hxdef, ← he, ← hy, ← hn0, ← hm0, ← hm, ← he2, hds]
      simp
    have hrest : ∀ c : Char, ('E' :: intDigits e2).head? = some c → isDigitC c = false := by
      intro c hc
      simp only [List.head?_cons, Option.some_inj] at hc
      subst hc
      decide
    have hipd : ∀ c ∈ [c0], isDigitC c = true := by
      intro c hc
      simp only [List.mem_singleton] at hc
      exact hc ▸ hdigits c0 (List.mem_cons_self _ _)
    have hpadd : ∀ c ∈ ds, isDigitC c = true :=
      fun c hc => hdigits c (List.mem_cons_of_mem _ hc)
    -- the parsed value before sign
    have hcore : parseF64 ([c0] ++ '.' :: (ds ++ 'E' :: intDigits e2))
        = some (((m : ℚ)) / 10 ^ d * (10 : ℚ) ^ e2) := by
      rw [parseF64_unsigned [c0] ds ('E' :: intDigits e2) (by simp) hipd hpadd hrest,
        parseExpPart_E, hmval]
    have hverr : |((m : ℚ)) / 10 ^ d * (10 : ℚ) ^ e2 - x| ≤ x / (2 * 10 ^ d) := by
      have hme : ((m : ℚ)) / 10 ^ d * (10 : ℚ) ^ e2 = ((m0 : ℚ)) * (10 : ℚ) ^ (e - (d : ℤ)) := by
        rw [← hval_eq, div_mul_eq_mul_div, zpow_sub₀ h10z, zpow_natCast]
        ring
      rw [hme]
      have hn0q : |((m0 : ℚ)) - y| ≤ 1 / 2 := by
        have := roundQ_abs_le y
        rw [← hn0] at this
        have hmq : ((m0 : ℚ)) = ((n0 : ℚ)) := by exact_mod_cast congrArg (Int.cast : ℤ → ℚ) hm0c
        rw [hmq]
        exact this
      have hzp : (0 : ℚ) < (10 : ℚ) ^ (e - (d : ℤ)) := by positivity
      have key : ((m0 : ℚ)) * (10 : ℚ) ^ (e - (d : ℤ)) - x
          = (((m0 : ℚ)) - y) * (10 : ℚ) ^ (e - (d : ℤ)) := by
        rw [hy]
        have : x * 10 ^ ((d : ℤ) - e) * (10 : ℚ) ^ (e - (d : ℤ)) = x := by
          rw [mul_assoc, ← zpow_add₀ h10z, show ((d : ℤ) - e) + (e - (d : ℤ)) = 0 by ring,
            zpow_zero, mul_one]
        rw [sub_mul, this]
      rw [key, abs_mul, abs_of_pos hzp]
      have hb1 : |((m0 : ℚ)) - y| * (10 : ℚ) ^ (e - (d : ℤ)) ≤ (1 / 2) * (10 : ℚ) ^ (e - (d : ℤ)) :=
        mul_le_mul_of_nonneg_right hn0q (le_of_lt hzp)
      have hb2 : (10 : ℚ) ^ (e - (d : ℤ)) ≤ x * ((10 : ℚ) ^ (d : ℤ))⁻¹ := by
        rw [zpow_sub₀ h10z, div_eq_mul_inv]
        exact mul_le_mul_of_nonneg_right hel (by positivity)
      have hxd : x / (2 * 10 ^ d) = (1 / 2) * (x * ((10 : ℚ) ^ (d : ℤ))⁻¹) := by
        rw [zpow_natCast]
        field_simp
      rw [hxd]
      calc |((m0 : ℚ)) - y| * (10 : ℚ) ^ (e - (d : ℤ))
          ≤ (1 / 2) * (10 : ℚ) ^ (e - (d : ℤ)) := hb1
        _ ≤ (1 / 2) * (x * ((10 : ℚ) ^ (d : ℤ))⁻¹) := by
            have := mul_le_mul_of_nonneg_left hb2 (show (0:ℚ) ≤ 1/2 by norm_num)
            exact this
    by_cases hqs : q < 0
    · refine ⟨-(((m : ℚ)) / 10 ^ d * (10 : ℚ) ^ e2), ?_, ?_⟩
      · rw [hfmt, if_pos hqs, List.singleton_append,
          show (c0 :: '.' :: (ds ++ 'E' :: intDigits e2))
            = [c0] ++ '.' :: (ds ++ 'E' :: intDigits e2) from rfl]
        rw [parseF64_signed [c0] ds ('E' :: intDigits e2) (by simp) hipd hpadd hrest,
          parseExpPart_E, hmval]
        simp
      · have hxq : x = -q := abs_of_neg hqs
        have : -(((m : ℚ)) / 10 ^ d * (10 : ℚ) ^ e2) - q
            = -(((m : ℚ)) / 10 ^ d * (10 : ℚ) ^ e2 - x) := by
          rw [hxq]
          ring
        rw [this, abs_neg]
        exact hverr
    · refine ⟨((m : ℚ)) / 10 ^ d * (10 : ℚ) ^ e2, ?_, ?_⟩
      · rw [hfmt, if_neg hqs, List.nil_append,
          show (c0 :: '.' :: (ds ++ 'E' :: intDigits e2))
            = [c0] ++ '.' :: (ds ++ 'E' :: intDigits e2) from rfl]
        exact hcore
      · have hxq : x = q := abs_of_pos (lt_of_le_of_ne (not_lt.mp hqs) (Ne.symm hq))
        rw [← hxq]
        exact hverr

/-! ## Helper lemmas: whitespace splitting and the ranking-file line -/

theorem splitWsA_accum (x : List Char) : ∀ (l cur : List Char),
    (∀ c ∈ x, isWsC c = false) →
    splitWsA (x ++ l) cur = splitWsA l (x.reverse ++ cur) := by
  induction x with
  | nil =>
    intro l cur _
    simp
  | cons c x' ih =>
    intro l cur hx
    have hc : isWsC c = false := hx c (List.mem_cons_self _ _)
    simp only [List.cons_append, splitWsA, hc, Bool.false_eq_true, if_false]
    rw [show List.append x' l = x' ++ l from rfl,
      ih l (c :: cur) (fun a ha => hx a (List.mem_cons_of_mem _ ha))]
    simp

theorem splitWsA_tab (l cur : List Char) (hcur : cur ≠ []) :
    splitWsA ('\t' :: l) cur = cur.reverse :: splitWsA l [] := by
  simp [splitWsA, hcur, show isWsC '\t' = true by decide]

theorem splitWsA_nil (cur : List Char) (hcur : cur ≠ []) :
    splitWsA [] cur = [cur.reverse] := by
  simp [splitWsA, hcur]

theorem splitWs_joinTab : ∀ cols : List (List Char), cols ≠ [] →
    (∀ x ∈ cols, x ≠ [] ∧ ∀ c ∈ x, isWsC c = false) →
    splitWs (joinSep '\t' cols) = cols := by
  intro cols
  induction cols with
  | nil => intro h; exact absurd rfl h
  | cons x ys ih =>
    intro _ hcols
    obtain ⟨hxne, hxws⟩ := hcols x (List.mem_cons_self _ _)
    cases ys with
    | nil =>
      show splitWsA (joinSep '\t' [x]) [] = [x]
      rw [show joinSep '\t' [x] = x from rfl]
      have hacc := splitWsA_accum x [] [] hxws
      rw [List.append_nil, List.append_nil] at hacc
      rw [hacc, splitWsA_nil _ (by simpa using hxne), List.reverse_reverse]
    | cons y ys' =>
      show splitWsA (joinSep '\t' (x :: y :: ys')) [] = x :: y :: ys'
      rw [joinSep_cons _ _ (by simp)]
      have hacc := splitWsA_accum x ('\t' :: joinSep '\t' (y :: ys')) [] hxws
      rw [List.append_nil] at hacc
      rw [hacc, splitWsA_tab _ _ (by simpa using hxne), List.reverse_reverse]
      exact congrArg (x :: ·)
        (ih (by simp) (fun z hz => hcols z (List.mem_cons_of_mem _ hz)))

theorem dropWhile_eq_self_of_head {p : Char → Bool} (l : List Char)
    (h : ∀ c, l.head? = some c → p c = false) : l.dropWhile p = l := by
  cases l with
  | nil => rfl
  | cons c t =>
    rw [List.dropWhile_cons, h c rfl]
    simp

theorem trimC_eq_self {l : List Char}
    (h1 : ∀ c, l.head? = some c → isWsC c = false)
    (h2 : ∀ c, l.getLast? = some c → isWsC c = false) : trimC l = l := by
  unfold trimC
  rw [dropWhile_eq_self_of_head l h1,
    dropWhile_eq_self_of_head l.reverse
      (fun c hc => h2 c (by rwa [List.head?_reverse] at hc)),
    List.reverse_reverse]

theorem intDigits_no_ws (e : ℤ) : ∀ c ∈ intDigits e, isWsC c = false := by
  intro c hc
  rcases List.mem_append.mp hc with h1 | h2
  · by_cases he : e < 0
    · rw [if_pos he] at h1
      simp only [List.mem_singleton] at h1
      rw [h1]
      decide
    · rw [if_neg he] at h1
      simp at h1
  · exact not_ws_of_digit (natDigits_all_digit _ _ h2)

theorem fmtFixed_no_ws (d : Nat) (q : ℚ) : ∀ c ∈ fmtFixed d q, isWsC c = false := by
  intro c hc
  simp only [fmtFixed, List.append_assoc, List.mem_append, List.mem_cons] at hc
  rcases hc with h1 | h2 | h3
  · by_cases hneg : roundQ (q * 10 ^ d) < 0
    · rw [if_pos hneg] at h1
      simp only [List.mem_singleton] at h1
      rw [h1]
      decide
    · rw [if_neg hneg] at h1
      simp at h1
  · exact not_ws_of_digit (natDigits_all_digit _ _ h2)
  · rcases h3 with rfl | h4
    · decide
    · exact not_ws_of_digit (padZeros_all_digit (natDigits_all_digit _) _ h4)

theorem fmtFixed_ne_nil (d : Nat) (q : ℚ) : fmtFixed d q ≠ [] := by
  simp [fmtFixed]

theorem fmtSci_shape_no_ws (sgn : List Char) (M : Nat) (E2 : ℤ)
    (hs : ∀ c ∈ sgn, isWsC c = false) :
    ∀ c ∈ (sgn ++ (natDigits M).headD '0' :: '.' :: ((natDigits M).tail ++ 'E' :: intDigits E2)),
      isWsC c = false := by
  intro c hc
  rcases List.mem_append.mp hc with h1 | h2
  · exact hs c h1
  · rcases List.mem_cons.mp h2 with rfl | h3
    · rcases hd : natDigits M with _ | ⟨c0, ds⟩
      · exact absurd hd (natDigits_ne_nil _)
      · simp only [List.headD_cons]
        exact not_ws_of_digit (natDigits_all_digit _ _ (by rw [hd]; exact List.mem_cons_self _ _))
    · rcases List.mem_cons.mp h3 with rfl | h4
      · decide
      · rcases List.mem_append.mp h4 with h5 | h6
        · exact not_ws_of_digit (natDigits_all_digit _ _ (List.mem_of_mem_tail h5))
        · rcases List.mem_cons.mp h6 with rfl | h7
          · decide
          · exact intDigits_no_ws _ c h7

theorem fmtSci_no_ws (d : Nat) (q : ℚ) : ∀ c ∈ fmtSci d q, isWsC c = false := by
  by_cases hq : q = 0
  · subst hq
    intro c hc
    rw [show fmtSci d 0 = '0' :: '.' :: (List.replicate d '0' ++ ['E', '0']) by
      simp [fmtSci]] at hc
    rcases List.mem_cons.mp hc with rfl | hc1
    · decide
    rcases List.mem_cons.mp hc1 with rfl | hc2
    · decide
    rcases List.mem_append.mp hc2 with h1 | h2
    · rw [List.eq_of_mem_replicate h1]
      decide
    · rcases List.mem_cons.mp h2 with rfl | h3
      · decide
      · simp only [List.mem_singleton] at h3
        rw [h3]
        decide
  · intro c hc
    revert c hc
    simp only [fmtSci, if_neg hq]
    apply fmtSci_shape_no_ws
    intro c hc
    by_cases hs : q < 0
    · rw [if_pos hs] at hc
      simp only [List.mem_singleton] at hc
      rw [hc]
      decide
    · rw [if_neg hs] at hc
      simp at hc

theorem fmtSci_ne_nil (d : Nat) (q : ℚ) : fmtSci d q ≠ [] := by
  by_cases hq : q = 0
  · subst hq
    simp [fmtSci]
  · simp [fmtSci, hq]

theorem splitDot_chars (l : List Char) : ∀ p ∈ splitDot l, ∀ c ∈ p, c ∈ l := by
  induction l with
  | nil =>
    intro p hp c hc
    simp only [splitDot, List.mem_singleton] at hp
    subst hp
    simp at hc
  | cons b rest ih =>
    intro p hp c hc
    by_cases hb : b = '.'
    · subst hb
      rw [splitDot_cons_dot] at hp
      rcases List.mem_cons.mp hp with rfl | hp2
      · simp at hc
      · exact List.mem_cons_of_mem _ (ih p hp2 c hc)
    · rw [splitDot_cons_ne _ hb] at hp
      rcases h : splitDot rest with _ | ⟨p0, ps⟩
      · exact absurd h (splitDot_ne_nil rest)
      · rw [h] at hp
        rcases List.mem_cons.mp hp with rfl | hp2
        · rcases List.mem_cons.mp hc with rfl | hc2
          · exact List.mem_cons_self _ _
          · exact List.mem_cons_of_mem _ (ih p0 (by rw [h]; exact List.mem_cons_self _ _) c hc2)
        · exact List.mem_cons_of_mem _
            (ih p (by rw [h]; exact List.mem_cons_of_mem _ hp2) c hc)

theorem joinSep_chars (sep : Char) : ∀ (xs : List (List Char)), ∀ c ∈ joinSep sep xs,
    c = sep ∨ ∃ x ∈ xs, c ∈ x := by
  intro xs
  induction xs with
  | nil =>
    intro c hc
    simp [joinSep] at hc
  | cons x ys ih =>
    intro c hc
    cases ys with
    | nil =>
      right
      exact ⟨x, List.mem_cons_self _ _, hc⟩
    | cons y ys' =>
      rw [joinSep_cons _ _ (by simp)] at hc
      rcases List.mem_append.mp hc with h1 | h2
      · right
        exact ⟨x, List.mem_cons_self _ _, h1⟩
      · rcases List.mem_cons.mp h2 with rfl | h3
        · left
          rfl
        · rcases ih c h3 with h4 | ⟨z, hz, hcz⟩
          · left
            exact h4
          · right
            exact ⟨z, List.mem_cons_of_mem _ hz, hcz⟩

theorem reverse_domain_no_ws {host : List Char} (h : ∀ c ∈ host, isWsC c = false) :
    ∀ c ∈ reverse_domain host, isWsC c = false := by
  intro c hc
  rcases joinSep_chars '.' _ c hc with rfl | ⟨x, hx, hcx⟩
  · decide
  · exact h c (splitDot_chars _ x (List.mem_reverse.mp hx) c hcx)

theorem startsWithSe_ne_nil {l : List Char} (h : startsWithSe l = true) : l ≠ [] := by
  intro he
  rw [he] at h
  exact absurd h (by decide)

theorem writeLine_expand (r : DomainRecord) :
    writeLine r = natDigits r.harmonicc_pos ++ '\t' :: (fmtSci 7 r.harmonicc_val ++ '\t' ::
      (natDigits r.pr_pos ++ '\t' :: (fmtFixed 18 r.pr_val ++ '\t' ::
      (reverse_domain r.host ++ '\t' :: natDigits r.n_hosts)))) := rfl

theorem writeLine_head_digit (r : DomainRecord) :
    ∀ c, (writeLine r).head? = some c → isDigitC c = true := by
  intro c hc
  rw [writeLine_expand, List.head?_append_of_ne_nil _ (natDigits_ne_nil _)] at hc
  exact natDigits_all_digit _ c (List.mem_of_mem_head? hc)

theorem writeLine_last_digit (r : DomainRecord) :
    ∀ c, (writeLine r).getLast? = some c → isDigitC c = true := by
  intro c hc
  rw [writeLine_expand, List.getLast?_append_cons, ← List.cons_append,
    List.getLast?_append_cons, ← List.cons_append, List.getLast?_append_cons,
    ← List.cons_append, List.getLast?_append_cons, ← List.cons_append,
    List.getLast?_append_cons,
    show ('\t' :: natDigits r.n_hosts) = ['\t'] ++ natDigits r.n_hosts from rfl,
    List.getLast?_append_of_ne_nil _ (natDigits_ne_nil _)] at hc
  exact natDigits_all_digit _ c (List.mem_of_mem_getLast? hc)

theorem writeLine_ne_nil (r : DomainRecord) : writeLine r ≠ [] := by
  rw [writeLine_expand]
  simp

theorem trimC_writeLine (r : DomainRecord) : trimC (writeLine r) = writeLine r :=
  trimC_eq_self (fun c hc => not_ws_of_digit (writeLine_head_digit r c hc))
    (fun c hc => not_ws_of_digit (writeLine_last_digit r c hc))

theorem writeLine_cols (r : DomainRecord) (hr : GoodRec r) :
    splitWs (writeLine r) =
      [natDigits r.harmonicc_pos, fmtSci 7 r.harmonicc_val, natDigits r.pr_pos,
       fmtFixed 18 r.pr_val, reverse_domain r.host, natDigits r.n_hosts] := by
  obtain ⟨hse, hws, hb1, hb2, hb3⟩ := hr
  show splitWs (joinSep '\t'
    [natDigits r.harmonicc_pos, fmtSci 7 r.harmonicc_val, natDigits r.pr_pos,
     fmtFixed 18 r.pr_val, reverse_domain r.host, natDigits r.n_hosts]) = _
  apply splitWs_joinTab _ (by simp)
  intro x hx
  simp only [List.mem_cons, List.not_mem_nil, or_false] at hx
  rcases hx with rfl | rfl | rfl | rfl | rfl | rfl
  · exact ⟨natDigits_ne_nil _, fun c hc => not_ws_of_digit (natDigits_all_digit _ c hc)⟩
  · exact ⟨fmtSci_ne_nil _ _, fmtSci_no_ws _ _⟩
  · exact ⟨natDigits_ne_nil _, fun c hc => not_ws_of_digit (natDigits_all_digit _ c hc)⟩
  · exact ⟨fmtFixed_ne_nil _ _, fmtFixed_no_ws _ _⟩
  · exact ⟨startsWithSe_ne_nil hse, reverse_domain_no_ws hws⟩
  · exact ⟨natDigits_ne_nil _, fun c hc => not_ws_of_digit (natDigits_all_digit _ c hc)⟩

theorem parseLine_writeLine (r : DomainRecord) (hr : GoodRec r) :
    ∃ hv pv : ℚ,
      parseLineDomainRec (writeLine r)
        = some ⟨r.harmonicc_pos, hv, r.pr_pos, pv, r.host, r.n_hosts⟩
      ∧ |hv - r.harmonicc_val| ≤ |r.harmonicc_val| / (2 * 10 ^ 7)
      ∧ |pv - r.pr_val| ≤ 1 / (2 * 10 ^ 18) := by
  obtain ⟨hse, hws, hb1, hb2, hb3⟩ := hr
  obtain ⟨hv, hpv1, hpv2⟩ := fmtSci_roundtrip 7 r.harmonicc_val
  obtain ⟨pv, hqv1, hqv2⟩ := fmtFixed_roundtrip 18 r.pr_val
  refine ⟨hv, pv, ?_, hpv2, hqv2⟩
  have hcond : ¬ (writeLine r = [] ∨ (writeLine r).head? = some '#') := by
    push_neg
    refine ⟨writeLine_ne_nil r, ?_⟩
    intro hc
    exact absurd (writeLine_head_digit r '#' hc) (by decide)
  simp only [parseLineDomainRec, trimC_writeLine,
    writeLine_cols r ⟨hse, hws, hb1, hb2, hb3⟩]
  rw [parseUsizeC_natDigits _ hb1, parseUsizeC_natDigits _ hb2, parseUsizeC_natDigits _ hb3,
    hpv1, hqv1]
  simp only [if_pos hse]
  rw [reverse_domain_reverse_domain, if_neg hcond]

/-! ## Claim C9 -/

/-- C9: round-trip of the ranking-file format — writing any list of
well-formed `.se` DomainRecords with `write_se_domains` and re-reading the
produced lines with `read_se_domains` yields records in the same order
with the same hosts and integer fields, the harmonic-rank value within a
relative tolerance of one half unit in the 7th significant digit, and the
PageRank value within half of 10^-18 (the fixed 18-decimal print
precision). -/
theorem se_domains_roundtrip (records : List DomainRecord)
    (hgood : ∀ r ∈ records, GoodRec r) :
    List.Forall₂ (fun r r2 : DomainRecord =>
        r2.host = r.host ∧ r2.harmonicc_pos = r.harmonicc_pos ∧ r2.pr_pos = r.pr_pos
        ∧ r2.n_hosts = r.n_hosts
        ∧ |r2.harmonicc_val - r.harmonicc_val| ≤ |r.harmonicc_val| / (2 * 10 ^ 7)
        ∧ |r2.pr_val - r.pr_val| ≤ 1 / (2 * 10 ^ 18))
      records (read_se_domains (write_se_domains records)) := by
  unfold read_se_domains write_se_domains
  have hhead : parseLineDomainRec headerLineSe = none := by decide
  rw [List.filterMap_cons_none hhead, List.filterMap_map]
  induction records with
  | nil => constructor
  | cons r rs ih =>
    obtain ⟨hv, pv, hparse, hv2, hp2⟩ := parseLine_writeLine r (hgood r (List.mem_cons_self _ _))
    rw [List.filterMap_cons]
    simp only [Function.comp_apply, hparse]
    exact List.Forall₂.cons ⟨rfl, rfl, rfl, rfl, hv2, hp2⟩
      (ih (fun z hz => hgood z (List.mem_cons_of_mem _ hz)))

/-- Witness for `se_domains_roundtrip` on a concrete one-record list. -/
theorem se_domains_roundtrip_witness :
    (∀ r ∈ [goodRec1], GoodRec r)
    ∧ List.Forall₂ (fun r r2 : DomainRecord =>
        r2.host = r.host ∧ r2.harmonicc_pos = r.harmonicc_pos ∧ r2.pr_pos = r.pr_pos
        ∧ r2.n_hosts = r.n_hosts
        ∧ |r2.harmonicc_val - r.harmonicc_val| ≤ |r.harmonicc_val| / (2 * 10 ^ 7)
        ∧ |r2.pr_val - r.pr_val| ≤ 1 / (2 * 10 ^ 18))
      [goodRec1] (read_se_domains (write_se_domains [goodRec1])) :=
  ⟨by decide, se_domains_roundtrip [goodRec1] (by decide)⟩

end CcSwedish
